import Mathlib

/-!
ApkRename.go: metadata extraction, packer label and file-name composition

A shallow embedding of `src/ApkRename.go` and a verification of its specification.

Go strings are byte sequences, so a string is a list of bytes here and `len`, slicing and
concatenation are the list operations.  The library functions the program calls
(`strings`, `regexp`, `path/filepath`) are embedded by what they compute on bytes.  Where Go
works on runes (regular expressions, `TrimSpace`, `Fields`) the byte-level scan is the same
computation: every byte outside `0x80..0xBF` starts a rune in Go's decoder, so an ASCII byte
or a complete UTF-8 encoding found at a byte position is always a rune of the decoded text.

State outside the file is passed explicitly: the archive listing, the outcome of the `aapt`
command, the global findings list `allPackResults`, the flags `ArgRename` and `ArgDeleteOrig`,
the file system with the faults of its operations, and the order in which a `range` over a
Go map visits its keys (Go leaves that order unspecified).  Paths are those of a system with
`/` as separator.
-/

namespace ApkRename

/-! ## Strings -/

/-- A Go `string`: a sequence of bytes. -/
abbrev GoString := List Nat

/-- UTF-8 encoding of the code point `n`. -/
def encodeRune (n : Nat) : GoString :=
  if n < 0x80 then [n]
  else if n < 0x800 then [0xC0 + n / 64, 0x80 + n % 64]
  else if n < 0x10000 then [0xE0 + n / 4096, 0x80 + n / 64 % 64, 0x80 + n % 64]
  else [0xF0 + n / 262144, 0x80 + n / 4096 % 64, 0x80 + n / 64 % 64, 0x80 + n % 64]

/-- The bytes of a string literal of the source (Go source text is UTF-8). -/
def bytes (s : String) : GoString := s.toList.flatMap (fun c => encodeRune c.toNat)

/-- `strings.HasPrefix(s, p)`. -/
def HasPrefix (s p : GoString) : Bool := p.isPrefixOf s

/-- `strings.HasSuffix(s, p)`. -/
def HasSuffix (s p : GoString) : Bool := p.isSuffixOf s

/-- `strings.Contains(s, substr)`: `substr` starts at some position of `s`. -/
def Contains (s substr : GoString) : Bool := s.tails.any (fun t => substr.isPrefixOf t)

/-- `strings.TrimSuffix(s, suffix)`. -/
def TrimSuffix (s suffix : GoString) : GoString :=
  if HasSuffix s suffix then s.take (s.length - suffix.length) else s

/-- `strings.Join(parts, sep)`. -/
def Join (parts : List GoString) (sep : GoString) : GoString := sep.intercalate parts

/-- `strings.Trim(s, cutset)` for a cutset of ASCII characters: the bytes of the cutset are
removed from both ends. -/
def Trim (s cutset : GoString) : GoString :=
  (s.dropWhile (fun b => cutset.contains b)).rdropWhile (fun b => cutset.contains b)

/-- `strings.ReplaceAll(s, old, new)` for a one-byte `old`. -/
def ReplaceAll (s : GoString) (old : Nat) (new : GoString) : GoString :=
  s.flatMap (fun b => if b = old then new else [b])

/-- Length of the word of `ws` that starts at the head of `s`, `0` when none does. -/
def prefixLen (ws : List GoString) (s : GoString) : Nat :=
  match ws.find? (fun w => w.isPrefixOf s) with
  | some w => w.length
  | none => 0

/-- Cuts a string at its delimiters.  `delim t` is the number of bytes of the delimiter that
starts at the head of `t`, `0` when none starts there; `skip` counts the bytes of the current
delimiter that are still to be passed and `cur` is the piece collected so far. -/
def splitBy (delim : GoString → Nat) : Nat → GoString → GoString → List GoString
  | _, cur, [] => [cur]
  | skip + 1, cur, _ :: s => splitBy delim skip cur s
  | 0, cur, b :: s =>
    if delim (b :: s) = 0 then splitBy delim 0 (cur ++ [b]) s
    else cur :: splitBy delim (delim (b :: s) - 1) [] s

/-- Removes the delimiters at the head of a string (`skip` as in `splitBy`). -/
def dropDelims (delim : GoString → Nat) : Nat → GoString → GoString
  | _, [] => []
  | skip + 1, _ :: s => dropDelims delim skip s
  | 0, b :: s => if delim (b :: s) = 0 then b :: s else dropDelims delim (delim (b :: s) - 1) s

/-- `strings.Split(s, sep)` for a non-empty `sep`: `s` is cut at the successive leftmost
occurrences of `sep`. -/
def Split (s sep : GoString) : List GoString := splitBy (prefixLen [sep]) 0 [] s

/-- The code points for which `unicode.IsSpace` holds (Unicode property White_Space). -/
def whiteSpace : List Nat :=
  [0x09, 0x0A, 0x0B, 0x0C, 0x0D, 0x20, 0x85, 0xA0, 0x1680,
   0x2000, 0x2001, 0x2002, 0x2003, 0x2004, 0x2005, 0x2006, 0x2007, 0x2008, 0x2009, 0x200A,
   0x2028, 0x2029, 0x202F, 0x205F, 0x3000]

/-- The UTF-8 encodings of the white-space code points. -/
def spaceRunes : List GoString := whiteSpace.map encodeRune

/-- Byte length of the white-space rune at the head of `s`, `0` when `s` does not start with
one. -/
def spaceLen (s : GoString) : Nat := prefixLen spaceRunes s

/-- Byte length of the white-space rune at the end of a string, given reversed. -/
def spaceLenRev (r : GoString) : Nat := prefixLen (spaceRunes.map List.reverse) r

/-- `strings.TrimSpace(s)`: the white-space runes at both ends are removed. -/
def TrimSpace (s : GoString) : GoString :=
  (dropDelims spaceLenRev 0 (dropDelims spaceLen 0 s).reverse).reverse

/-- `strings.Fields(s)`: the maximal pieces of `s` without white space. -/
def Fields (s : GoString) : List GoString :=
  (splitBy spaceLen 0 [] s).filter (fun f => f ≠ [])

/-! ## Regular expressions -/

/-- A compiled pattern of the shape `pre([^c]+)c·post`: the literal `pre`, a capture group of
one or more characters other than `c`, then the literal `c` followed by `post`.  All the
capturing patterns of the program have this shape. -/
structure Pattern where
  pre : GoString
  stop : Nat
  post : GoString

/-- The capture of the match of `p` that starts at the head of `s`.  The greedy group takes
every byte up to the next `stop`; a shorter group cannot be followed by `stop`, so there is
nothing to backtrack to. -/
def Pattern.matchAt (p : Pattern) (s : GoString) : Option GoString :=
  if p.pre.isPrefixOf s then
    let rest := s.drop p.pre.length
    let cap := rest.takeWhile (fun b => b != p.stop)
    if cap ≠ [] ∧ (p.stop :: p.post).isPrefixOf (rest.drop cap.length) then some cap else none
  else none

/-- `match := p.FindStringSubmatch(s)`: `some match[1]` when `len(match) > 1`, for the
leftmost match. -/
def Pattern.FindStringSubmatch (p : Pattern) : GoString → Option GoString
  | [] => none
  | b :: s =>
    match p.matchAt (b :: s) with
    | some cap => some cap
    | none => p.FindStringSubmatch s

/-! ## Data model -/

/-- The `APKInfo` struct. -/
structure APKInfo where
  PackageName : GoString := []
  VersionName : GoString := []
  VersionCode : GoString := []
  AppName : GoString := []
  FilePath : GoString := []
  deriving DecidableEq, Repr

/-- An entry of `apkReader.File` as the program observes it: its name and the bytes read from
it, `none` when `file.Open()` or `io.ReadAll` returns an error. -/
structure ZipFile where
  Name : GoString
  content : Option GoString
  deriving DecidableEq, Repr

/-! ## The sanitizer -/

/-- The characters of the class `[\/\\:*?"<>|]`. -/
def illegalChars : GoString := bytes "/\\:*?\"<>|"

/-- The function `cleanString`. -/
def cleanString (s : GoString) : GoString :=
  let s := s.map (fun b => if illegalChars.contains b then 0x5F else b)
  let s := Trim s (bytes " _")
  if s = [] then bytes "Unknown" else s

/-- A string that `cleanString` has nothing to change in: no illegal path character, and
neither a space nor an underscore at its ends. -/
def Tidy (x : GoString) : Prop :=
  (∀ b ∈ x, b ∉ illegalChars) ∧ (∀ b ∈ x.head?, b ∉ bytes " _") ∧
    (∀ b ∈ x.getLast?, b ∉ bytes " _")

instance (x : GoString) : Decidable (Tidy x) := by
  unfold Tidy
  infer_instance

/-! ## The manifest extractor -/

/-- The keys of the map `patterns` of `parseManifestFromZip`. -/
inductive ManifestKey where
  | package
  | versionName
  | versionCode
  | label
  deriving DecidableEq, Repr

/-- The map `patterns` of `parseManifestFromZip`: `package="([^"]+)"`,
`android:versionName="([^"]+)"`, `android:versionCode="([^"]+)"`, `android:label="([^"]+)"`. -/
def manifestPatterns : ManifestKey → Pattern
  | .package => ⟨bytes "package=\"", 0x22, []⟩
  | .versionName => ⟨bytes "android:versionName=\"", 0x22, []⟩
  | .versionCode => ⟨bytes "android:versionCode=\"", 0x22, []⟩
  | .label => ⟨bytes "android:label=\"", 0x22, []⟩

/-- The body of the loop `for key, pattern := range patterns` for one key. -/
def manifestStep (manifestStr : GoString) (info : APKInfo) (key : ManifestKey) : APKInfo :=
  match (manifestPatterns key).FindStringSubmatch manifestStr with
  | none => info
  | some m1 =>
    match key with
    | .package => { info with PackageName := m1 }
    | .versionName => { info with VersionName := m1 }
    | .versionCode => { info with VersionCode := m1 }
    | .label =>
      if info.AppName = [] ∧ ¬ HasPrefix m1 (bytes "@") then { info with AppName := m1 }
      else info

/-- The function `parseManifestFromZip`.  `order` is the order in which the `range` over the
map `patterns` visits its keys.  An entry that cannot be read is passed over (`continue`);
the first manifest that is read ends the scan (`break`). -/
def parseManifestFromZip (order : List ManifestKey) : List ZipFile → APKInfo → APKInfo
  | [], info => info
  | file :: files, info =>
    if file.Name = bytes "AndroidManifest.xml" then
      match file.content with
      | none => parseManifestFromZip order files info
      | some manifestStr => order.foldl (manifestStep manifestStr) info
    else parseManifestFromZip order files info

/-- The keys of the map `patterns`, each once: what a `range` over the map visits, in some
order. -/
def manifestKeys : List ManifestKey := [.package, .versionName, .versionCode, .label]

/-- No entry of `pre` is a manifest that can be read: `parseManifestFromZip` passes over all
of `pre`. -/
def NoManifest (pre : List ZipFile) : Prop :=
  ∀ f ∈ pre, f.Name = bytes "AndroidManifest.xml" → f.content = none

instance (pre : List ZipFile) : Decidable (NoManifest pre) := by
  unfold NoManifest
  infer_instance

/-! ## The resource-string extractor -/

/-- The pattern `<string name="KEY">([^<]+)</string>`. -/
def stringPattern (key : GoString) : Pattern :=
  ⟨bytes "<string name=\"" ++ key ++ bytes "\">", 0x3C, bytes "/string>"⟩

/-- The slice `patterns` of `parseStringsFromZip`, in its order. -/
def stringsPatterns : List Pattern :=
  [stringPattern (bytes "app_name"), stringPattern (bytes "app_title"),
   stringPattern (bytes "application_name"), stringPattern (bytes "title")]

/-- The resource keys of the slice `patterns`, in its order. -/
def stringsKeys : List GoString :=
  [bytes "app_name", bytes "app_title", bytes "application_name", bytes "title"]

/-- The loop `for _, pattern := range patterns` of `parseStringsFromZip`: the capture of the
first pattern of the slice that matches. -/
def firstStringsMatch (stringsStr : GoString) : Option GoString :=
  stringsPatterns.findSome? (fun pattern => pattern.FindStringSubmatch stringsStr)

/-- The function `parseStringsFromZip`. -/
def parseStringsFromZip : List ZipFile → APKInfo → APKInfo
  | [], info => info
  | file :: files, info =>
    if Contains file.Name (bytes "res/values") ∧ HasSuffix file.Name (bytes "strings.xml") then
      match file.content with
      | none => parseStringsFromZip files info
      | some stringsStr =>
        match firstStringsMatch stringsStr with
        | some m1 => { info with AppName := TrimSpace m1 }
        | none => parseStringsFromZip files info
    else parseStringsFromZip files info

/-- The path test of `parseStringsFromZip` on an entry name. -/
def IsStringsPath (name : GoString) : Prop :=
  Contains name (bytes "res/values") = true ∧ HasSuffix name (bytes "strings.xml") = true

instance (name : GoString) : Decidable (IsStringsPath name) := by
  unfold IsStringsPath
  infer_instance

/-- No entry of `pre` gives a display name: each one fails the path test, cannot be read, or
has no match of any of the four patterns, so that `parseStringsFromZip` passes over all of
`pre`. -/
def NoStrings (pre : List ZipFile) : Prop :=
  ∀ f ∈ pre, IsStringsPath f.Name → f.content.bind firstStringsMatch = none

instance (pre : List ZipFile) : Decidable (NoStrings pre) := by
  unfold NoStrings
  infer_instance

/-! ## The external-tool extractor -/

/-- The body of the loop over the lines of the badging dump. -/
def aaptLine (info : APKInfo) (line : GoString) : APKInfo :=
  let line := TrimSpace line
  let info :=
    if HasPrefix line (bytes "package:") then
      let info :=
        match (Pattern.mk (bytes "name='") 0x27 []).FindStringSubmatch line with
        | some m1 => { info with PackageName := m1 }
        | none => info
      let info :=
        match (Pattern.mk (bytes "versionName='") 0x27 []).FindStringSubmatch line with
        | some m1 => { info with VersionName := m1 }
        | none => info
      match (Pattern.mk (bytes "versionCode='") 0x27 []).FindStringSubmatch line with
      | some m1 => { info with VersionCode := m1 }
      | none => info
    else info
  if HasPrefix line (bytes "application-label:") then
    match (Pattern.mk (bytes "application-label:'") 0x27 []).FindStringSubmatch line with
    | some m1 => { info with AppName := m1 }
    | none => info
  else info

/-- The function `extractWithAapt`.  `cmdOutput` is the outcome of
`exec.Command("aapt", "dump", "badging", apkPath).Output()`: `none` when it returns an error,
otherwise the standard output of the command. -/
def extractWithAapt (cmdOutput : Option GoString) : Option APKInfo :=
  match cmdOutput with
  | none => none
  | some output => some ((Split output (bytes "\n")).foldl aaptLine {})

/-- In `s` the first occurrence of the text `key` is followed by `value` and a single quote,
where `value` is not empty and has no single quote. -/
def FirstToken (key value s : GoString) : Prop :=
  ∃ a rest, s = a ++ key ++ value ++ [0x27] ++ rest ∧
    (∀ u ∈ a.tails, u ≠ [] → ¬ key <+: u ++ key ++ value ++ [0x27] ++ rest) ∧
    value ≠ [] ∧ 0x27 ∉ value

/-! ## The metadata resolver -/

/-- `filepath.Base(path)` with `/` as the separator (no volume names). -/
def Base (path : GoString) : GoString :=
  if path = [] then bytes "."
  else
    let path := path.rdropWhile (fun b => b == 0x2F)
    let path := path.rtakeWhile (fun b => b != 0x2F)
    if path = [] then bytes "/" else path

/-- Lines 27 to 50 of `ExtractAndPrintAPKInfo`: the record after the manifest, the
resource-string and the external-tool stage.  `apkReader` is `none` for a nil reader. -/
def runExtractors (order : List ManifestKey) (cmdOutput : Option GoString)
    (apkPath : GoString) (apkReader : Option (List ZipFile)) : APKInfo :=
  let info : APKInfo := { FilePath := apkPath }
  let info :=
    match apkReader with
    | none => info
    | some files =>
      let info := parseManifestFromZip order files info
      if info.AppName = [] then parseStringsFromZip files info else info
  if info.PackageName = [] then
    match extractWithAapt cmdOutput with
    | some aaptInfo =>
      { info with
        PackageName := aaptInfo.PackageName
        VersionName := aaptInfo.VersionName
        VersionCode := aaptInfo.VersionCode
        AppName := if info.AppName = [] then aaptInfo.AppName else info.AppName }
    | none => info
  else info

/-- The function `ExtractAndPrintAPKInfo` (the record it returns; printing is left out). -/
def ExtractAndPrintAPKInfo (order : List ManifestKey) (cmdOutput : Option GoString)
    (apkPath : GoString) (apkReader : Option (List ZipFile)) : APKInfo :=
  let info := runExtractors order cmdOutput apkPath apkReader
  let info :=
    if info.AppName = [] then { info with AppName := TrimSuffix (Base apkPath) (bytes ".apk") }
    else info
  { info with
    AppName := cleanString info.AppName
    PackageName := cleanString info.PackageName
    VersionName := cleanString info.VersionName }

/-! ## The packer-label aggregator -/

/-- The opening parentheses of the class `[（(]`. -/
def openParens : List GoString := [bytes "（", bytes "("]

/-- The closing parentheses of the class `[）)]`. -/
def closeParens : List GoString := [bytes "）", bytes ")"]

/-- Number of bytes up to the end of the first closing parenthesis of `s`, `none` when `s`
has none. -/
def closeEnd : GoString → Option Nat
  | [] => none
  | b :: s =>
    if prefixLen closeParens (b :: s) = 0 then (closeEnd s).map (fun n => n + 1)
    else some (prefixLen closeParens (b :: s))

/-- `regexp.MustCompile("[（(][^）)]*[）)]").ReplaceAllString(s, "")`.  A match starts at an
opening parenthesis that has a closing one behind it and ends with the first such closing
parenthesis; the scan goes on behind the match.  `skip` counts the bytes of the current match
still to be dropped. -/
def removeParens : Nat → GoString → GoString
  | _, [] => []
  | skip + 1, _ :: s => removeParens skip s
  | 0, b :: s =>
    if prefixLen openParens (b :: s) = 0 then b :: removeParens 0 s
    else
      match closeEnd ((b :: s).drop (prefixLen openParens (b :: s))) with
      | some n => removeParens (prefixLen openParens (b :: s) + n - 1) s
      | none => b :: removeParens 0 s

/-- The function `cleanPackName`.  The loop over `suffixes` is kept as written: both of its
paths leave `packName` as it is. -/
def cleanPackName (packName : GoString) : GoString :=
  let packName := removeParens 0 packName
  let suffixes := [bytes "加固", bytes "保护", bytes "安全", bytes "防护"]
  let packName := suffixes.foldl
    (fun packName suffix =>
      if HasSuffix packName suffix ∧ packName.length > suffix.length then packName
      else packName) packName
  let packName := TrimSpace packName
  ReplaceAll packName 0x20 []

/-- The body of the loop over `allPackResults`; `packNames` holds the keys of the map, each
once. -/
def addPackName (packNames : List GoString) (result : GoString) : List GoString :=
  let parts := Split result (bytes " -> ")
  if parts.length ≥ 2 then
    let beforeArrow := TrimSpace (parts.headD [])
    let words := Fields beforeArrow
    if words.length ≥ 2 then
      let packName := cleanPackName (words.getLastD [])
      if packName ≠ [] then
        if packName ∈ packNames then packNames else packNames ++ [packName]
      else packNames
    else packNames
  else packNames

/-- The vendor name that a finding gives to the map: the path through the body of the loop
over `allPackResults` up to the test `packName != ""`. -/
def vendorName (result : GoString) : Option GoString :=
  let parts := Split result (bytes " -> ")
  if parts.length ≥ 2 then
    let beforeArrow := TrimSpace (parts.headD [])
    let words := Fields beforeArrow
    if words.length ≥ 2 then
      let packName := cleanPackName (words.getLastD [])
      if packName ≠ [] then some packName else none
    else none
  else none

/-- The function `GetPackInfoFromResults`, with the global `allPackResults` as an argument.
`rangeOrder keys` is the order in which `for name := range packNames` visits the keys of the
map (a rearrangement of them; Go does not say which). -/
def GetPackInfoFromResults (rangeOrder : List GoString → List GoString)
    (allPackResults : List GoString) : GoString :=
  if allPackResults.length = 0 then bytes "无加固"
  else
    let packNames := allPackResults.foldl addPackName []
    if packNames.length = 0 then bytes "无加固"
    else Join (rangeOrder packNames) (bytes "_")

/-- What a `range` over a Go map may do: it visits every key once, in some order. -/
def IsRangeOrder (rangeOrder : List GoString → List GoString) : Prop :=
  ∀ keys, (rangeOrder keys).Perm keys

/-! ## The renamer: the file name -/

/-- Lines 272 to 290 of `RenameAPKFile`: the file name `newFileName`. -/
def newFileName (apkInfo : APKInfo) (packInfo : GoString) : GoString :=
  let parts := [packInfo, apkInfo.AppName, apkInfo.PackageName]
  let parts := if apkInfo.VersionName ≠ [] then parts ++ [apkInfo.VersionName] else parts
  let newFileName := Join parts (bytes "_") ++ bytes ".apk"
  if newFileName.length > 200 then
    let baseName := TrimSuffix newFileName (bytes ".apk")
    let baseName := if baseName.length > 196 then baseName.take 196 else baseName
    baseName ++ bytes ".apk"
  else newFileName

/-- A UTF-8 continuation byte, `0x80..0xBF`. -/
def IsCont (x : Nat) : Prop := 0x80 ≤ x ∧ x < 0xC0

instance (x : Nat) : Decidable (IsCont x) := by
  unfold IsCont
  infer_instance

/-- The composed name without its extension: `L_D_P_V`, and `L_D_P` for an empty version
name. -/
def composedBase (apkInfo : APKInfo) (packInfo : GoString) : GoString :=
  packInfo ++ bytes "_" ++ apkInfo.AppName ++ bytes "_" ++ apkInfo.PackageName ++
    (if apkInfo.VersionName = [] then [] else bytes "_" ++ apkInfo.VersionName)

/-- `utf8.RuneCountInString(s)`, the number of characters of `s`: every byte that is not a
continuation byte starts one (for well-formed UTF-8, and for a character cut short). -/
def RuneCountInString (s : GoString) : Nat := (s.filter (fun b => ¬ IsCont b)).length

/-! ## The renamer: paths and the file system -/

/-- The stack of path elements that `filepath.Clean` keeps, last element first: empty
elements and `.` are dropped, `..` removes the element before it when there is one to
remove, and otherwise stays in a path that is not rooted. -/
def cleanElems (rooted : Bool) : List GoString → List GoString → List GoString
  | out, [] => out
  | out, e :: es =>
    if e = [] ∨ e = bytes "." then cleanElems rooted out es
    else if e = bytes ".." then
      match out with
      | [] => if rooted then cleanElems rooted [] es else cleanElems rooted [e] es
      | top :: rest =>
        if top = bytes ".." then cleanElems rooted (e :: out) es
        else cleanElems rooted rest es
    else cleanElems rooted (e :: out) es

/-- `filepath.Clean(path)` with `/` as the separator (no volume names). -/
def Clean (path : GoString) : GoString :=
  let rooted := path.head? = some 0x2F
  let out := Join (cleanElems rooted [] (Split path (bytes "/"))).reverse (bytes "/")
  if rooted then bytes "/" ++ out
  else if out = [] then bytes "."
  else out

/-- `filepath.Dir(path)`: the cleaned path up to its last separator. -/
def Dir (path : GoString) : GoString := Clean (path.rdropWhile (fun b => b != 0x2F))

/-- `filepath.Join(elem...)`: the elements from the first non-empty one on, joined by `/`
and cleaned. -/
def filepathJoin (elem : List GoString) : GoString :=
  match elem.dropWhile (fun e => e.isEmpty) with
  | [] => []
  | es => Clean (Join es (bytes "/"))

/-- `filepath.Ext(path)`: the suffix that starts at the last dot of the last element of the
path, empty when there is no dot. -/
def Ext (path : GoString) : GoString :=
  let tail := path.rtakeWhile (fun b => b != 0x2E && b != 0x2F)
  if (path.take (path.length - tail.length)).getLast? = some 0x2E then 0x2E :: tail else []

/-- The decimal digits of `n` in front of `acc`; `fuel` bounds the number of digits. -/
def decimalAux : Nat → Nat → GoString → GoString
  | 0, _, acc => acc
  | fuel + 1, n, acc =>
    if n < 10 then (48 + n) :: acc else decimalAux fuel (n / 10) ((48 + n % 10) :: acc)

/-- The verb `%d` of `fmt.Sprintf` for the counter of the collision loop.  The counter is an
`int` that counts up from 1; it is a natural number here (it would take 2^63 existing files
to make it wrap). -/
def decimal (n : Nat) : GoString := decimalAux (n + 1) n []

/-- The file system as the program observes it: the paths that exist, each with its content.
A path stands for one file. -/
structure FileSystem where
  files : List (GoString × GoString)
  deriving DecidableEq, Repr

/-- `_, err := os.Stat(name); os.IsNotExist(err)` on a file system where `os.Stat` fails only
for a path that does not exist.  (Where `os.Stat` fails for another reason the test of line
300 is false although nothing is there: see `osStat`.) -/
def FileSystem.isNotExist (fs : FileSystem) (name : GoString) : Bool :=
  !(fs.files.any (fun f => f.1 == name))

/-- The content of the file `name`, `none` when it does not exist. -/
def FileSystem.read (fs : FileSystem) (name : GoString) : Option GoString :=
  (fs.files.find? (fun f => f.1 == name)).map (fun f => f.2)

/-- The file system in which `name` has the content `data`. -/
def FileSystem.write (fs : FileSystem) (name data : GoString) : FileSystem :=
  ⟨(name, data) :: fs.files.filter (fun f => f.1 != name)⟩

/-- The file system without `name`. -/
def FileSystem.remove (fs : FileSystem) (name : GoString) : FileSystem :=
  ⟨fs.files.filter (fun f => f.1 != name)⟩

/-- What the environment decides when a file operation is tried (permissions, a full
disk): whether `os.Open` of an existing file fails, whether `os.Create` fails, whether
`ReadFrom` stops with an error and after how many bytes, whether `os.Remove` of an existing
file fails. -/
structure Faults where
  openFails : Bool := false
  createFails : Bool := false
  readFromFails : Option Nat := none
  removeFails : Bool := false
  deriving DecidableEq, Repr

/-- The function `copyFile`: `true` stands for an error; the file system is returned as
the call leaves it. -/
def copyFile (fs : FileSystem) (faults : Faults) (src dst : GoString) : Bool × FileSystem :=
  if fs.isNotExist src ∨ faults.openFails then (true, fs)
  else if faults.createFails then (true, fs)
  else
    let fs := fs.write dst []
    let data := (fs.read src).getD []
    match faults.readFromFails with
    | some n => (true, fs.write dst (data.take n))
    | none => (false, fs.write dst data)

/-- Lines 296 to 307 of `RenameAPKFile`, the loop that makes the file name unique.
`isNotExist` is the test of line 300 and `fuel` bounds the number of times it is made:
`none` when the loop has not ended by then. -/
def uniqueFilePath (isNotExist : GoString → Bool) (originalNewFilePath : GoString) :
    Nat → Nat → GoString → Option GoString
  | 0, _, _ => none
  | fuel + 1, counter, newFilePath =>
    if isNotExist newFilePath then some newFilePath
    else
      let ext := Ext originalNewFilePath
      let baseName := TrimSuffix originalNewFilePath ext
      uniqueFilePath isNotExist originalNewFilePath fuel (counter + 1)
        (baseName ++ bytes "_" ++ decimal counter ++ ext)

/-- The two errors that `RenameAPKFile` returns. -/
inductive RenameError where
  | copyFailed
  | deleteFailed
  deriving DecidableEq, Repr

/-- The function `RenameAPKFile`, with the flags `*ArgRename` and `*ArgDeleteOrig`, the
file system and the faults of the environment as arguments.  The result is the error
returned (`none` for `nil`) and the file system afterwards; it is `none` when the loop of
lines 299 to 307 has not ended after `fuel` tests. -/
def RenameAPKFile (ArgRename ArgDeleteOrig : Bool) (faults : Faults) (fuel : Nat)
    (fs : FileSystem) (apkInfo : APKInfo) (packInfo : GoString) :
    Option (Option RenameError × FileSystem) :=
  if !ArgRename then some (none, fs)
  else
    let dir := Dir apkInfo.FilePath
    let newFilePath := filepathJoin [dir, newFileName apkInfo packInfo]
    match uniqueFilePath fs.isNotExist newFilePath fuel 1 newFilePath with
    | none => none
    | some newFilePath =>
      match copyFile fs faults apkInfo.FilePath newFilePath with
      | (true, fs) => some (some .copyFailed, fs)
      | (false, fs) =>
        if ArgDeleteOrig then
          if fs.isNotExist apkInfo.FilePath ∨ faults.removeFails then
            some (some .deleteFailed, fs)
          else some (none, fs.remove apkInfo.FilePath)
        else some (none, fs)

/-- The outcomes of `os.Stat` that line 300 tells apart: the path is there (`err == nil`), it
is not there (`os.IsNotExist(err)` holds), or the call fails for another reason. -/
inductive StatResult where
  | found
  | notExist
  | otherError
  deriving DecidableEq, Repr

/-- The test `os.IsNotExist(err)` of line 300 on an outcome of `os.Stat`. -/
def StatResult.isNotExist : StatResult → Bool
  | .notExist => true
  | _ => false

/-- `os.Stat(name)` on a Linux file system whose regular files are `files`: `EINVAL` for a
name with a NUL byte, `ENOTDIR` for a name below a regular file, success for the files and
for the directories above them, `ENOENT` for every other name. -/
def osStat (files : List GoString) (name : GoString) : StatResult :=
  if 0 ∈ name then .otherError
  else if files.any (fun f => (f ++ bytes "/").isPrefixOf name) then .otherError
  else if files.any (fun f => f == name || (name ++ bytes "/").isPrefixOf f) then .found
  else .notExist

/-- The paths that the collision loop tries for the candidate `path`: `path` itself, then
`base_1.ext`, `base_2.ext`, and so on. -/
def candidate (path : GoString) (n : Nat) : GoString :=
  if n = 0 then path
  else TrimSuffix path (Ext path) ++ bytes "_" ++ decimal n ++ Ext path

/-! ## Shapes of strings -/

/-- The string `t` contains none of the words of `ws`. -/
def Free (ws : List GoString) (t : GoString) : Prop := ∀ w ∈ ws, ¬ w <:+: t

instance (ws : List GoString) (t : GoString) : Decidable (Free ws t) := by
  unfold Free
  infer_instance

/-- A run of white space: white-space runes one after the other. -/
inductive IsSpaces : GoString → Prop
  | nil : IsSpaces []
  | cons {w t : GoString} : w ∈ spaceRunes → IsSpaces t → IsSpaces (w ++ t)

/-- No delimiter starts at a position of `a` in the string `a ++ b`. -/
def Quiet (delim : GoString → Nat) (a b : GoString) : Prop :=
  ∀ u, u ≠ [] → u <:+ a → delim (u ++ b) = 0

/-- The words of `ws` are UTF-8 encodings: all their bytes but the first are continuation
bytes. -/
def Synchronized (ws : List GoString) : Prop := ∀ w ∈ ws, ∀ x ∈ w.tail, IsCont x

instance (ws : List GoString) : Decidable (Synchronized ws) := by
  unfold Synchronized
  infer_instance

/-- No word of `ws` is the start of another one. -/
def PrefixFree (ws : List GoString) : Prop := ∀ w₁ ∈ ws, ∀ w₂ ∈ ws, w₁ <+: w₂ → w₁ = w₂

instance (ws : List GoString) : Decidable (PrefixFree ws) := by
  unfold PrefixFree
  infer_instance

/-! ## Example inputs -/

/-- A manifest with the four attributes of the example of the specification. -/
def exampleManifest : GoString :=
  bytes ("<manifest package=\"com.example.app\" android:versionName=\"1.2.3\" " ++
    "android:versionCode=\"45\"><application android:label=\"My App\"/></manifest>")

/-- A manifest whose label is a resource reference. -/
def labelRefManifest : GoString :=
  bytes "<manifest><application android:label=\"@string/app_name\"/></manifest>"

/-- A strings resource that defines `app_name` as `value`. -/
def appNameStrings (value : GoString) : GoString :=
  bytes "<resources><string name=\"app_name\">" ++ value ++ bytes "</string></resources>"

/-- An archive whose manifest label is a resource reference and whose strings resource
defines `app_name` as `value`. -/
def labelRefArchive (value : GoString) : List ZipFile :=
  [⟨bytes "AndroidManifest.xml", some labelRefManifest⟩,
   ⟨bytes "res/values/strings.xml", some (appNameStrings value)⟩]

/-- An archive whose manifest has a version name and a version code but no package name. -/
def versionOnlyArchive : List ZipFile :=
  [⟨bytes "AndroidManifest.xml",
      some (bytes "<manifest android:versionName=\"1.2.3\" android:versionCode=\"45\"/>")⟩]

/-- Two findings that name two vendors. -/
def twoVendors : List GoString :=
  [bytes "    Sopath  VendorA -> assets/liba.so", bytes "    Sopath  VendorB -> assets/libb.so"]

/-- A resolved record with a version name. -/
def exampleInfo : APKInfo :=
  { AppName := bytes "My App", PackageName := bytes "com.example.app",
    VersionName := bytes "1.2.3", VersionCode := bytes "45", FilePath := bytes "dir/app.apk" }

/-- A record whose display name has 70 characters of three bytes each. -/
def wideInfo : APKInfo :=
  { AppName := (List.replicate 70 (bytes "应")).flatten, PackageName := bytes "p",
    FilePath := bytes "dir/app.apk" }

/-- A strings resource in which `title` and, behind it, `app_title` are defined. -/
def titleStrings : GoString :=
  bytes ("<resources><string name=\"title\">Third</string>" ++
    "<string name=\"app_title\"> Second </string></resources>")

/-- An archive with an unreadable strings resource, one without any of the four keys, the
resource `titleStrings`, and a last one that defines `app_name`. -/
def stringsArchive : List ZipFile :=
  [⟨bytes "res/values-de/strings.xml", none⟩,
   ⟨bytes "res/values-fr/strings.xml", some (bytes "<string name=\"hello\">Salut</string>")⟩,
   ⟨bytes "res/values/strings.xml", some titleStrings⟩,
   ⟨bytes "res/values-en/strings.xml", some (appNameStrings (bytes "First"))⟩]

/-- Findings that name two vendors, one of them twice, with a line without arrow and a line
whose vendor is only a qualifier. -/
def mixedFindings : List GoString :=
  [bytes "    Sopath  VendorA -> assets/liba.so", bytes "no arrow in this line",
   bytes "    Sopath  VendorB（Pro） -> assets/libb.so", bytes "    Sopath  (Pro) -> lib/c.so",
   bytes "    Soname  VendorA -> lib/liba2.so"]

/-- A `package:` line of a badging dump, with white space around it and the three tokens
in an order of its own. -/
def packageLine : GoString :=
  bytes "  package: versionCode='45' versionName='1.2.3' name='com.example.app' sdk='30'\r"

/-- A `package:` line whose version name is the text `name=`. -/
def trickyPackageLine : GoString :=
  bytes "package: versionName='name=' name='com.example.app' versionCode='45'"

/-- A directory with the source archive and a file that has the candidate name. -/
def exampleFS : FileSystem :=
  ⟨[(bytes "dir/app.apk", bytes "DATA"),
    (bytes "dir/L_My App_com.example.app_1.2.3.apk", bytes "old")]⟩

/-- A directory that holds the source archive and nothing else. -/
def onDisk : List GoString := [bytes "dir/app.apk"]

/-- An archive whose manifest is a binary blob: the label that the pattern captures has a
NUL byte. -/
def nulArchive : List ZipFile :=
  [⟨bytes "AndroidManifest.xml",
      some (bytes "package=\"com.example.app\" android:versionName=\"1.2.3\" " ++
        bytes "android:label=\"A" ++ [0] ++ bytes "B\"")⟩]

/-- The candidate path of `RenameAPKFile` for the archive `nulArchive` at `dir/app.apk`. -/
def nulPath : GoString :=
  filepathJoin [Dir (bytes "dir/app.apk"),
    newFileName (ExtractAndPrintAPKInfo manifestKeys none (bytes "dir/app.apk") (some nulArchive))
      (bytes "无加固")]

/-- A record whose source path lies below the regular file `dir/app.apk`. -/
def belowFileInfo : APKInfo :=
  { AppName := bytes "App", PackageName := bytes "p", FilePath := bytes "dir/app.apk/inner.apk" }

/-- The candidate path of `RenameAPKFile` for the record `belowFileInfo`. -/
def belowFilePath : GoString :=
  filepathJoin [Dir belowFileInfo.FilePath, newFileName belowFileInfo (bytes "L")]

/-! ## Lemmas on the string functions -/

theorem mem_of_mem_Trim {s cutset : GoString} {b : Nat} (h : b ∈ Trim s cutset) : b ∈ s := by
  unfold Trim at h
  exact (List.dropWhile_sublist _).subset ((List.rdropWhile_prefix _ _).sublist.subset h)

theorem illegalChars_eq : illegalChars = [47, 92, 58, 42, 63, 34, 60, 62, 124] := by decide

theorem not_illegal_of_mem_map {s : GoString} {b : Nat}
    (h : b ∈ s.map (fun b => if illegalChars.contains b then 0x5F else b)) :
    b ∉ illegalChars := by
  obtain ⟨a, -, rfl⟩ := List.mem_map.1 h
  by_cases ha : a ∈ illegalChars
  · rw [if_pos (by simpa using ha)]
    decide
  · rw [if_neg (by simpa using ha)]
    exact ha

/-! ## The sanitizer -/

theorem cleanString_legal (s : GoString) : ∀ b ∈ cleanString s, b ∉ illegalChars := by
  intro b hb
  unfold cleanString at hb
  simp only at hb
  split at hb
  · revert b
    decide
  · exact not_illegal_of_mem_map (mem_of_mem_Trim hb)

theorem cleanString_ne_nil (s : GoString) : cleanString s ≠ [] := by
  unfold cleanString
  simp only
  split
  · decide
  · assumption

theorem cleanString_nil : cleanString [] = bytes "Unknown" := by decide

/-- C1: for every string `s`, `cleanString s` contains none of the characters
`/ \ : * ? " < > |` and is not empty; it is `"Unknown"` when nothing is left after replacing
and trimming. -/
theorem cleanString_legal_nonempty (s : GoString) :
    (∀ b ∈ cleanString s, b ∉ illegalChars) ∧ cleanString s ≠ [] ∧
    (Trim (s.map (fun b => if illegalChars.contains b then 0x5F else b)) (bytes " _") = [] →
      cleanString s = bytes "Unknown") := by
  refine ⟨cleanString_legal s, cleanString_ne_nil s, ?_⟩
  intro h
  unfold cleanString
  simp only
  rw [if_pos h]

theorem matchAt_ne_nil {p : Pattern} {s cap : GoString} (h : p.matchAt s = some cap) :
    cap ≠ [] := by
  unfold Pattern.matchAt at h
  simp only at h
  split at h
  · split at h
    · rename_i h2
      cases h
      exact h2.1
    · cases h
  · cases h

theorem FindStringSubmatch_ne_nil {p : Pattern} {s cap : GoString}
    (h : p.FindStringSubmatch s = some cap) : cap ≠ [] := by
  induction s with
  | nil => cases h
  | cons b s ih =>
    unfold Pattern.FindStringSubmatch at h
    split at h
    · rename_i c hc
      cases h
      exact matchAt_ne_nil hc
    · exact ih h

theorem cleanString_of_tidy {x : GoString} (hne : x ≠ []) (ht : Tidy x) : cleanString x = x := by
  obtain ⟨h1, h2, h3⟩ := ht
  have hmap : x.map (fun b => if illegalChars.contains b then 0x5F else b) = x := by
    conv_rhs => rw [← List.map_id x]
    apply List.map_congr_left
    intro a ha
    have := h1 a ha
    simp [this]
  have htrim : Trim x (bytes " _") = x := by
    unfold Trim
    have hd : x.dropWhile (fun b => (bytes " _").contains b) = x := by
      cases x with
      | nil => rfl
      | cons a l =>
        have : a ∉ bytes " _" := h2 a (by simp)
        simp [List.dropWhile, this]
    rw [hd, List.rdropWhile_eq_self_iff]
    intro hl
    have : x.getLast hl ∉ bytes " _" := h3 _ (by simp [List.getLast?_eq_getLast _ hl])
    simpa using this
  unfold cleanString
  simp only [hmap, htrim, if_neg hne]

theorem parseManifest_skip (order : List ManifestKey) {pre : List ZipFile} (hpre : NoManifest pre)
    (rest : List ZipFile) (info : APKInfo) :
    parseManifestFromZip order (pre ++ rest) info = parseManifestFromZip order rest info := by
  induction pre with
  | nil => rfl
  | cons f pre ih =>
    have ih := ih (fun g hg => hpre g (List.mem_cons_of_mem _ hg))
    rw [List.cons_append, parseManifestFromZip]
    split
    · rename_i hn
      rw [hpre f (List.mem_cons_self _ _) hn]
      exact ih
    · exact ih

theorem parseManifest_found (order : List ManifestKey) {pre : List ZipFile} (hpre : NoManifest pre)
    (m : GoString) (post : List ZipFile) (info : APKInfo) :
    parseManifestFromZip order (pre ++ ⟨bytes "AndroidManifest.xml", some m⟩ :: post) info
      = order.foldl (manifestStep m) info := by
  rw [parseManifest_skip order hpre, parseManifestFromZip]
  simp

theorem manifestStep_eq (m : GoString) (info : APKInfo) (k : ManifestKey) :
    manifestStep m info k =
      { PackageName :=
          if k = .package then
            ((manifestPatterns .package).FindStringSubmatch m).getD info.PackageName
          else info.PackageName
        VersionName :=
          if k = .versionName then
            ((manifestPatterns .versionName).FindStringSubmatch m).getD info.VersionName
          else info.VersionName
        VersionCode :=
          if k = .versionCode then
            ((manifestPatterns .versionCode).FindStringSubmatch m).getD info.VersionCode
          else info.VersionCode
        AppName :=
          if k = .label ∧ info.AppName = [] then
            match (manifestPatterns .label).FindStringSubmatch m with
            | some l => if HasPrefix l (bytes "@") then [] else l
            | none => []
          else info.AppName
        FilePath := info.FilePath } := by
  obtain ⟨pn, vn, vc, an, fp⟩ := info
  cases k <;> unfold manifestStep
  · cases (manifestPatterns .package).FindStringSubmatch m <;> simp
  · cases (manifestPatterns .versionName).FindStringSubmatch m <;> simp
  · cases (manifestPatterns .versionCode).FindStringSubmatch m <;> simp
  · cases (manifestPatterns .label).FindStringSubmatch m with
    | none =>
      by_cases h : an = [] <;> simp [h]
    | some l =>
      by_cases h : an = [] <;> by_cases h2 : HasPrefix l (bytes "@") = true <;>
        simp [h, h2]

theorem foldl_manifestStep (m : GoString) (order : List ManifestKey) (info : APKInfo) :
    order.foldl (manifestStep m) info =
      { PackageName :=
          if ManifestKey.package ∈ order then
            ((manifestPatterns .package).FindStringSubmatch m).getD info.PackageName
          else info.PackageName
        VersionName :=
          if ManifestKey.versionName ∈ order then
            ((manifestPatterns .versionName).FindStringSubmatch m).getD info.VersionName
          else info.VersionName
        VersionCode :=
          if ManifestKey.versionCode ∈ order then
            ((manifestPatterns .versionCode).FindStringSubmatch m).getD info.VersionCode
          else info.VersionCode
        AppName :=
          if ManifestKey.label ∈ order ∧ info.AppName = [] then
            match (manifestPatterns .label).FindStringSubmatch m with
            | some l => if HasPrefix l (bytes "@") then [] else l
            | none => []
          else info.AppName
        FilePath := info.FilePath } := by
  induction order generalizing info with
  | nil => simp
  | cons k ks ih =>
    rw [List.foldl_cons, ih, manifestStep_eq]
    generalize (manifestPatterns .package).FindStringSubmatch m = fp
    generalize (manifestPatterns .versionName).FindStringSubmatch m = fv
    generalize (manifestPatterns .versionCode).FindStringSubmatch m = fc
    generalize (manifestPatterns .label).FindStringSubmatch m = fl
    cases k
    · by_cases h : ManifestKey.package ∈ ks <;> cases fp <;> simp [h]
    · by_cases h : ManifestKey.versionName ∈ ks <;> cases fv <;> simp [h]
    · by_cases h : ManifestKey.versionCode ∈ ks <;> cases fc <;> simp [h]
    · by_cases h : ManifestKey.label ∈ ks <;> by_cases h2 : info.AppName = [] <;>
        simp [h, h2]

/-- C2: when the manifest that is read has a match of each of the four patterns, with first
captures `P`, `V`, `C`, `L` and `L` not starting with `@`, the resolved record holds the
sanitized `P`, `V`, `L` and `C` as it is, whatever the other entries of the archive, the
outcome of the external tool and the order of the map iteration are; when `P`, `V`, `L` have
no illegal character and no space or underscore at their ends the record holds `P`, `V`, `C`,
`L` themselves. -/
theorem manifest_fields_resolved (order : List ManifestKey) (cmdOutput : Option GoString)
    (apkPath : GoString) (pre post : List ZipFile) (m P V C L : GoString)
    (horder : order.Perm manifestKeys) (hpre : NoManifest pre)
    (hP : (manifestPatterns .package).FindStringSubmatch m = some P)
    (hV : (manifestPatterns .versionName).FindStringSubmatch m = some V)
    (hC : (manifestPatterns .versionCode).FindStringSubmatch m = some C)
    (hL : (manifestPatterns .label).FindStringSubmatch m = some L)
    (hat : HasPrefix L (bytes "@") = false) :
    ExtractAndPrintAPKInfo order cmdOutput apkPath
        (some (pre ++ ⟨bytes "AndroidManifest.xml", some m⟩ :: post))
      = { PackageName := cleanString P, VersionName := cleanString V, VersionCode := C,
          AppName := cleanString L, FilePath := apkPath } ∧
    (Tidy P → Tidy V → Tidy L →
      ExtractAndPrintAPKInfo order cmdOutput apkPath
          (some (pre ++ ⟨bytes "AndroidManifest.xml", some m⟩ :: post))
        = { PackageName := P, VersionName := V, VersionCode := C, AppName := L,
            FilePath := apkPath }) := by
  have hPne := FindStringSubmatch_ne_nil hP
  have hVne := FindStringSubmatch_ne_nil hV
  have hLne := FindStringSubmatch_ne_nil hL
  have hmem : ∀ k : ManifestKey, k ∈ order := by
    intro k
    rw [horder.mem_iff]
    cases k <;> decide
  have key : ExtractAndPrintAPKInfo order cmdOutput apkPath
        (some (pre ++ ⟨bytes "AndroidManifest.xml", some m⟩ :: post))
      = { PackageName := cleanString P, VersionName := cleanString V, VersionCode := C,
          AppName := cleanString L, FilePath := apkPath } := by
    unfold ExtractAndPrintAPKInfo runExtractors
    simp only [parseManifest_found order hpre, foldl_manifestStep, hmem, hP, hV, hC, hL, hat,
      Option.getD_some, true_and, if_true]
    simp [hPne, hLne]
  refine ⟨key, ?_⟩
  intro tP tV tL
  rw [key, cleanString_of_tidy hPne tP, cleanString_of_tidy hVne tV, cleanString_of_tidy hLne tL]

set_option maxRecDepth 100000 in
/-- Witness of C2: `com.example.app`, `1.2.3`, `45`, `My App`. -/
theorem manifest_fields_resolved_witness :
    ExtractAndPrintAPKInfo manifestKeys none (bytes "dir/app.apk")
        (some ([] ++ ⟨bytes "AndroidManifest.xml", some exampleManifest⟩ :: []))
      = { PackageName := bytes "com.example.app", VersionName := bytes "1.2.3",
          VersionCode := bytes "45", AppName := bytes "My App",
          FilePath := bytes "dir/app.apk" } :=
  (manifest_fields_resolved manifestKeys none (bytes "dir/app.apk") [] [] exampleManifest
    (bytes "com.example.app") (bytes "1.2.3") (bytes "45") (bytes "My App")
    (List.Perm.refl _) (by decide) (by decide) (by decide) (by decide) (by decide)
    (by decide)).2 (by decide) (by decide) (by decide)

theorem parseStrings_skip {pre : List ZipFile} (hpre : NoStrings pre) (rest : List ZipFile)
    (info : APKInfo) :
    parseStringsFromZip (pre ++ rest) info = parseStringsFromZip rest info := by
  induction pre with
  | nil => rfl
  | cons f pre ih =>
    have ih := ih (fun g hg => hpre g (List.mem_cons_of_mem _ hg))
    rw [List.cons_append, parseStringsFromZip]
    split
    · rename_i hn
      cases hc : f.content with
      | none => exact ih
      | some c =>
        have hnone := hpre f (List.mem_cons_self _ _) hn
        rw [hc] at hnone
        simp only
        rw [show firstStringsMatch c = none from hnone]
        exact ih
    · exact ih

theorem parseStrings_found {pre : List ZipFile} (hpre : NoStrings pre) {name x m1 : GoString}
    (hname : IsStringsPath name) (hx : firstStringsMatch x = some m1) (post : List ZipFile)
    (info : APKInfo) :
    parseStringsFromZip (pre ++ ⟨name, some x⟩ :: post) info
      = { info with AppName := TrimSpace m1 } := by
  rw [parseStrings_skip hpre, parseStringsFromZip, if_pos (show _ ∧ _ from hname)]
  simp only [hx]

theorem firstStringsMatch_app_name {x N : GoString}
    (h : (stringPattern (bytes "app_name")).FindStringSubmatch x = some N) :
    firstStringsMatch x = some N := by
  simp [firstStringsMatch, stringsPatterns, List.findSome?, h]

/-- C3: when the manifest label is a resource reference (it starts with `@`) it is not
assigned as display name; and when the first strings resource of the listing in which a key
matches defines `app_name` as `N`, with `N` not blank, the resolved display name is the
sanitized `TrimSpace N`. -/
theorem label_reference_resolved (order : List ManifestKey) (cmdOutput : Option GoString)
    (apkPath : GoString) (files pre post pre' post' : List ZipFile) (m L name x N : GoString)
    (hfilesM : files = pre ++ ⟨bytes "AndroidManifest.xml", some m⟩ :: post)
    (hpre : NoManifest pre)
    (hL : (manifestPatterns .label).FindStringSubmatch m = some L)
    (hat : HasPrefix L (bytes "@") = true)
    (hfilesS : files = pre' ++ ⟨name, some x⟩ :: post')
    (hpre' : NoStrings pre') (hname : IsStringsPath name)
    (hN : (stringPattern (bytes "app_name")).FindStringSubmatch x = some N)
    (hblank : TrimSpace N ≠ []) :
    (parseManifestFromZip order files { FilePath := apkPath }).AppName = [] ∧
    (ExtractAndPrintAPKInfo order cmdOutput apkPath (some files)).AppName
      = cleanString (TrimSpace N) := by
  have hman : (parseManifestFromZip order files { FilePath := apkPath }).AppName = [] := by
    rw [hfilesM, parseManifest_found order hpre, foldl_manifestStep]
    simp [hL, hat]
  refine ⟨hman, ?_⟩
  have hstr : ∀ info : APKInfo, parseStringsFromZip files info
      = { info with AppName := TrimSpace N } := by
    intro info
    rw [hfilesS]
    exact parseStrings_found hpre' hname (firstStringsMatch_app_name hN) post' info
  unfold ExtractAndPrintAPKInfo runExtractors
  simp only [hman, hstr, if_true]
  cases cmdOutput <;> simp [extractWithAapt, hblank]
  split <;> simp [hblank]

set_option maxRecDepth 100000 in
/-- Witness of C3: `@string/app_name` with `app_name` defined as `Real Name`. -/
theorem label_reference_resolved_witness :
    (parseManifestFromZip manifestKeys (labelRefArchive (bytes "Real Name"))
      { FilePath := bytes "dir/app.apk" }).AppName = [] ∧
    (ExtractAndPrintAPKInfo manifestKeys none (bytes "dir/app.apk")
      (some (labelRefArchive (bytes "Real Name")))).AppName = bytes "Real Name" :=
  label_reference_resolved manifestKeys none (bytes "dir/app.apk")
    (labelRefArchive (bytes "Real Name")) []
    [⟨bytes "res/values/strings.xml", some (appNameStrings (bytes "Real Name"))⟩]
    [⟨bytes "AndroidManifest.xml", some labelRefManifest⟩] []
    labelRefManifest (bytes "@string/app_name") (bytes "res/values/strings.xml")
    (appNameStrings (bytes "Real Name")) (bytes "Real Name")
    (by decide) (by decide) (by decide) (by decide) (by decide)
    (by decide) (by decide) (by decide) (by decide)

set_option maxRecDepth 100000 in
/-- Counterexample to C3 as stated.  First archive: `app_name` is defined as a blank; the
display name is not the sanitized trimmed value (`Unknown`) but comes from the file name.
Second archive: an earlier strings resource defines `app_name` too; the later definition
`Real Name` is not the display name. -/
theorem label_reference_counterexample :
    ((stringPattern (bytes "app_name")).FindStringSubmatch
        (appNameStrings (bytes " ")) = some (bytes " ") ∧
      cleanString (TrimSpace (bytes " ")) = bytes "Unknown" ∧
      (ExtractAndPrintAPKInfo manifestKeys none (bytes "dir/app.apk")
        (some (labelRefArchive (bytes " ")))).AppName = bytes "app") ∧
    (ExtractAndPrintAPKInfo manifestKeys none (bytes "dir/app.apk")
        (some (⟨bytes "res/values-de/strings.xml",
            some (bytes "<string name=\"app_name\">Echter Name</string>")⟩ ::
          labelRefArchive (bytes "Real Name")))).AppName = bytes "Echter Name" := by
  decide

/-! ## The metadata resolver -/

/-- C4: the display name of the resolved record is never empty, for every archive (a nil
reader included), source path and outcome of the external tool; when the extractors leave the
display name empty it is the sanitized base name of the source path without its `.apk`
suffix. -/
theorem displayName_nonempty (order : List ManifestKey) (cmdOutput : Option GoString)
    (apkPath : GoString) (apkReader : Option (List ZipFile)) :
    (ExtractAndPrintAPKInfo order cmdOutput apkPath apkReader).AppName ≠ [] ∧
    ((runExtractors order cmdOutput apkPath apkReader).AppName = [] →
      (ExtractAndPrintAPKInfo order cmdOutput apkPath apkReader).AppName
        = cleanString (TrimSuffix (Base apkPath) (bytes ".apk"))) := by
  constructor
  · unfold ExtractAndPrintAPKInfo
    exact cleanString_ne_nil _
  · intro h
    unfold ExtractAndPrintAPKInfo
    simp only [h, if_true]

/-- C5, as amended: a package name (respectively version name) that no extractor finds is
`Unknown` in the resolved record, the placeholder of `cleanString`. -/
theorem missing_fields_placeholder (order : List ManifestKey) (cmdOutput : Option GoString)
    (apkPath : GoString) (apkReader : Option (List ZipFile)) :
    ((runExtractors order cmdOutput apkPath apkReader).PackageName = [] →
      (ExtractAndPrintAPKInfo order cmdOutput apkPath apkReader).PackageName
        = bytes "Unknown") ∧
    ((runExtractors order cmdOutput apkPath apkReader).VersionName = [] →
      (ExtractAndPrintAPKInfo order cmdOutput apkPath apkReader).VersionName
        = bytes "Unknown") := by
  constructor <;> intro h <;> unfold ExtractAndPrintAPKInfo <;> simp only
  · split <;> simp only [h, cleanString_nil]
  · split <;> simp only [h, cleanString_nil]

/-- Counterexample to C5 as stated: without an archive and without the external tool no
extractor finds a package name or a version name, and both are `Unknown`, not empty, in the
resolved record. -/
theorem missing_fields_counterexample :
    (runExtractors manifestKeys none (bytes "dir/app.apk") none).PackageName = [] ∧
    (runExtractors manifestKeys none (bytes "dir/app.apk") none).VersionName = [] ∧
    (ExtractAndPrintAPKInfo manifestKeys none (bytes "dir/app.apk") none).PackageName
      = bytes "Unknown" ∧
    (ExtractAndPrintAPKInfo manifestKeys none (bytes "dir/app.apk") none).VersionName
      = bytes "Unknown" ∧
    (ExtractAndPrintAPKInfo manifestKeys none (bytes "dir/app.apk") none).PackageName ≠ [] ∧
    (ExtractAndPrintAPKInfo manifestKeys none (bytes "dir/app.apk") none).VersionName ≠ [] := by
  decide

set_option maxRecDepth 100000 in
/-- C6, the code at the failing input.  The manifest gives version name `1.2.3` and version
code `45` but no package name.  With a tool output that has its own values these replace the
manifest's; with a tool output whose `package:` line has only `name=` they are replaced by
empty strings (the version name then becomes `Unknown`). -/
theorem aapt_overwrites_manifest_version :
    (parseManifestFromZip manifestKeys versionOnlyArchive { FilePath := bytes "dir/app.apk" })
      = { VersionName := bytes "1.2.3", VersionCode := bytes "45",
          FilePath := bytes "dir/app.apk" } ∧
    ExtractAndPrintAPKInfo manifestKeys
        (some (bytes "package: name='com.tool' versionCode='7' versionName='9.9'\n"))
        (bytes "dir/app.apk") (some versionOnlyArchive)
      = { PackageName := bytes "com.tool", VersionName := bytes "9.9", VersionCode := bytes "7",
          AppName := bytes "app", FilePath := bytes "dir/app.apk" } ∧
    ExtractAndPrintAPKInfo manifestKeys (some (bytes "package: name='com.tool'\n"))
        (bytes "dir/app.apk") (some versionOnlyArchive)
      = { PackageName := bytes "com.tool", VersionName := bytes "Unknown", VersionCode := [],
          AppName := bytes "app", FilePath := bytes "dir/app.apk" } := by
  decide

/-! ## Lemmas on cutting strings -/

theorem prefixLen_eq_zero {ws : List GoString} {s : GoString} (h : ∀ w ∈ ws, ¬ w <+: s) :
    prefixLen ws s = 0 := by
  unfold prefixLen
  have : ws.find? (fun w => w.isPrefixOf s) = none := by
    rw [List.find?_eq_none]
    intro w hw
    simpa using h w hw
  rw [this]

theorem prefixLen_pos {ws : List GoString} {s : GoString} (h : prefixLen ws s ≠ 0) :
    ∃ w ∈ ws, w <+: s ∧ prefixLen ws s = w.length := by
  unfold prefixLen at h ⊢
  cases hf : ws.find? (fun w => w.isPrefixOf s) with
  | none => rw [hf] at h; exact absurd rfl h
  | some w =>
    refine ⟨w, List.mem_of_find?_eq_some hf, ?_, rfl⟩
    simpa using List.find?_some hf

theorem splitBy_quiet (delim : GoString → Nat) (a b cur : GoString)
    (h : ∀ u, u ≠ [] → u <:+ a → delim (u ++ b) = 0) :
    splitBy delim 0 cur (a ++ b) = splitBy delim 0 (cur ++ a) b := by
  induction a generalizing cur with
  | nil => simp
  | cons x a ih =>
    have hx : delim (x :: (a ++ b)) = 0 := h (x :: a) (by simp) (List.suffix_refl _)
    rw [List.cons_append, splitBy, if_pos hx,
      ih _ (fun u hu hs => h u hu (hs.trans (List.suffix_cons _ _)))]
    simp

theorem splitBy_nil (delim : GoString → Nat) (cur : GoString) :
    splitBy delim 0 cur [] = [cur] := by
  rw [splitBy]

theorem Split_eq_singleton {s sep : GoString} (h : ¬ sep <:+: s) : Split s sep = [s] := by
  have := splitBy_quiet (prefixLen [sep]) s [] [] (by
    intro u _ hs
    apply prefixLen_eq_zero
    intro w hw hpre
    rw [List.mem_singleton] at hw
    subst hw
    rw [List.append_nil] at hpre
    exact h (hpre.isInfix.trans hs.isInfix))
  rw [List.append_nil] at this
  rw [Split, this, splitBy_nil, List.nil_append]

theorem addPackName_of_no_arrow (packNames : List GoString) {result : GoString}
    (h : ¬ bytes "->" <:+: result) : addPackName packNames result = packNames := by
  have hsep : ¬ bytes " -> " <:+: result := by
    intro hi
    exact h (List.IsInfix.trans (by decide) hi)
  unfold addPackName
  simp [Split_eq_singleton hsep]

/-! ## The packer-label aggregator -/

/-- C7: a findings list that is empty or in which no line contains `->` gives the label
`无加固`. -/
theorem no_arrow_sentinel (rangeOrder : List GoString → List GoString)
    (allPackResults : List GoString) (h : ∀ r ∈ allPackResults, ¬ bytes "->" <:+: r) :
    GetPackInfoFromResults rangeOrder allPackResults = bytes "无加固" := by
  have hfold : ∀ (l acc : List GoString), (∀ r ∈ l, ¬ bytes "->" <:+: r) →
      l.foldl addPackName acc = acc := by
    intro l
    induction l with
    | nil => intros; rfl
    | cons r l ih =>
      intro acc hl
      rw [List.foldl_cons, addPackName_of_no_arrow acc (hl r (List.mem_cons_self _ _))]
      exact ih acc (fun r hr => hl r (List.mem_cons_of_mem _ hr))
  unfold GetPackInfoFromResults
  simp only [hfold allPackResults [] h]
  simp

/-- Witness of C7: two findings without an arrow. -/
theorem no_arrow_sentinel_witness :
    GetPackInfoFromResults id [bytes "Sopath VendorX", bytes "Sopath VendorY - > lib.so"]
      = bytes "无加固" :=
  no_arrow_sentinel id [bytes "Sopath VendorX", bytes "Sopath VendorY - > lib.so"] (by decide)

/-! ## Lemmas on delimiters -/

theorem prefixLen_word {ws : List GoString} (hfree : PrefixFree ws) {w : GoString}
    (hw : w ∈ ws) (r : GoString) : prefixLen ws (w ++ r) = w.length := by
  have hne : prefixLen ws (w ++ r) ≠ 0 ∨ w.length = 0 := by
    by_cases hl : w.length = 0
    · exact Or.inr hl
    · left
      intro h0
      unfold prefixLen at h0
      cases hf : ws.find? (fun v => v.isPrefixOf (w ++ r)) with
      | none =>
        rw [List.find?_eq_none] at hf
        exact hf w hw (by simp)
      | some v =>
        rw [hf] at h0
        have hv : v <+: w ++ r := by simpa using List.find?_some hf
        have hvm := List.mem_of_find?_eq_some hf
        simp only at h0
        rw [List.length_eq_zero] at h0
        subst h0
        have := hfree [] hvm w hw (List.nil_prefix)
        exact hl (by rw [← this]; rfl)
  rcases hne with hne | h0
  · obtain ⟨v, hvm, hv, hlen⟩ := prefixLen_pos hne
    rw [hlen]
    rcases List.prefix_or_prefix_of_prefix hv (List.prefix_append w r) with h | h
    · rw [hfree v hvm w hw h]
    · rw [hfree w hw v hvm h]
  · rw [List.length_eq_zero] at h0
    subst h0
    have : prefixLen ws ([] ++ r) = 0 ∨ prefixLen ws ([] ++ r) ≠ 0 := by tauto
    rcases this with h | h
    · exact h
    · obtain ⟨v, hvm, -, hlen⟩ := prefixLen_pos h
      rw [hlen, ← hfree [] hw v hvm List.nil_prefix]

theorem quiet_append {delim : GoString → Nat} {a₁ a₂ b : GoString}
    (h₁ : Quiet delim a₁ (a₂ ++ b)) (h₂ : Quiet delim a₂ b) : Quiet delim (a₁ ++ a₂) b := by
  intro u hu hs
  rcases List.suffix_or_suffix_of_suffix hs (List.suffix_append a₁ a₂) with h | h
  · exact h₂ u hu h
  · obtain ⟨t, ht⟩ := h
    subst ht
    have hs' : t <:+ a₁ := by
      obtain ⟨p, hp⟩ := hs
      rw [← List.append_assoc] at hp
      exact ⟨p, List.append_cancel_right hp⟩
    by_cases htn : t = []
    · subst htn
      exact h₂ _ hu (List.suffix_refl _)
    · rw [List.append_assoc]
      exact h₁ t htn hs'

theorem quiet_of_heads {ws : List GoString} {a : GoString}
    (h : ∀ w ∈ ws, ∀ x ∈ w.head?, x ∉ a) (hne : ∀ w ∈ ws, w ≠ []) (b : GoString) :
    Quiet (prefixLen ws) a b := by
  intro u hu hs
  apply prefixLen_eq_zero
  intro w hw hpre
  cases w with
  | nil => exact hne _ hw rfl
  | cons x w =>
    cases u with
    | nil => exact hu rfl
    | cons y u =>
      rw [List.cons_append, List.cons_prefix_cons] at hpre
      obtain ⟨rfl, -⟩ := hpre
      exact h _ hw x (by simp) (hs.subset (List.mem_cons_self _ _))

theorem quiet_of_free {ws : List GoString} (hsync : Synchronized ws) {a b : GoString}
    (hfree : Free ws a) (hb : ∀ x ∈ b.head?, ¬ IsCont x) : Quiet (prefixLen ws) a b := by
  intro u hu hs
  apply prefixLen_eq_zero
  intro w hw hpre
  rcases List.prefix_or_prefix_of_prefix hpre (List.prefix_append u b) with h | h
  · exact hfree w hw (h.isInfix.trans hs.isInfix)
  · obtain ⟨y, rfl⟩ := h
    rw [List.prefix_append_right_inj] at hpre
    cases y with
    | nil =>
      rw [List.append_nil] at hw
      exact hfree u hw hs.isInfix
    | cons y0 y =>
      cases b with
      | nil => simp at hpre
      | cons b0 b =>
        rw [List.cons_prefix_cons] at hpre
        obtain ⟨rfl, -⟩ := hpre
        refine hb y0 (by simp) (hsync _ hw y0 ?_)
        cases u with
        | nil => exact absurd rfl hu
        | cons u0 u => simp

theorem splitBy_skip (delim : GoString → Nat) (x r cur : GoString) :
    splitBy delim x.length cur (x ++ r) = splitBy delim 0 cur r := by
  induction x with
  | nil => rfl
  | cons a x ih => rw [List.length_cons, List.cons_append, splitBy, ih]

theorem splitBy_word (delim : GoString → Nat) {w : GoString} (r cur : GoString) (hw : w ≠ [])
    (hd : delim (w ++ r) = w.length) :
    splitBy delim 0 cur (w ++ r) = cur :: splitBy delim 0 [] r := by
  cases w with
  | nil => exact absurd rfl hw
  | cons a w =>
    rw [List.cons_append] at hd ⊢
    rw [splitBy, if_neg (by rw [hd]; simp), hd]
    simp only [List.length_cons, Nat.add_sub_cancel]
    rw [splitBy_skip]

theorem dropDelims_skip (delim : GoString → Nat) (x r : GoString) :
    dropDelims delim x.length (x ++ r) = dropDelims delim 0 r := by
  induction x with
  | nil => rfl
  | cons a x ih => rw [List.length_cons, List.cons_append, dropDelims, ih]

theorem dropDelims_word (delim : GoString → Nat) {w : GoString} (r : GoString) (hw : w ≠ [])
    (hd : delim (w ++ r) = w.length) :
    dropDelims delim 0 (w ++ r) = dropDelims delim 0 r := by
  cases w with
  | nil => exact absurd rfl hw
  | cons a w =>
    rw [List.cons_append] at hd ⊢
    rw [dropDelims, if_neg (by rw [hd]; simp), hd]
    simp only [List.length_cons, Nat.add_sub_cancel]
    rw [dropDelims_skip]

theorem dropDelims_stop (delim : GoString → Nat) {s : GoString} (h : delim s = 0) :
    dropDelims delim 0 s = s := by
  cases s with
  | nil => rfl
  | cons a s => rw [dropDelims, if_pos h]

theorem removeParens_skip (x r : GoString) :
    removeParens x.length (x ++ r) = removeParens 0 r := by
  induction x with
  | nil => rfl
  | cons a x ih => rw [List.length_cons, List.cons_append, removeParens, ih]

theorem removeParens_quiet {a b : GoString} (h : Quiet (prefixLen openParens) a b) :
    removeParens 0 (a ++ b) = a ++ removeParens 0 b := by
  induction a with
  | nil => rfl
  | cons x a ih =>
    have hx : prefixLen openParens (x :: (a ++ b)) = 0 := h (x :: a) (by simp) (List.suffix_refl _)
    rw [List.cons_append, removeParens, if_pos hx,
      ih (fun u hu hs => h u hu (hs.trans (List.suffix_cons _ _)))]
    rfl

theorem closeEnd_quiet {a b : GoString} (h : Quiet (prefixLen closeParens) a b) :
    closeEnd (a ++ b) = (closeEnd b).map (fun n => n + a.length) := by
  induction a with
  | nil => simp
  | cons x a ih =>
    have hx : prefixLen closeParens (x :: (a ++ b)) = 0 :=
      h (x :: a) (by simp) (List.suffix_refl _)
    rw [List.cons_append, closeEnd, if_pos hx,
      ih (fun u hu hs => h u hu (hs.trans (List.suffix_cons _ _)))]
    cases closeEnd b <;> simp [Nat.add_assoc]

theorem closeEnd_word {c : GoString} (hc : c ∈ closeParens) (r : GoString) :
    closeEnd (c ++ r) = some c.length := by
  have hlen := prefixLen_word (by decide : PrefixFree closeParens) hc r
  have hne : c ≠ [] := by
    rintro rfl
    revert hc
    decide
  cases c with
  | nil => exact absurd rfl hne
  | cons x c =>
    rw [List.cons_append] at hlen ⊢
    rw [closeEnd, if_neg (by rw [hlen]; simp), hlen]

theorem head_append_not_cont {ws : List GoString}
    (h : ∀ c ∈ ws, c ≠ [] ∧ ∀ x ∈ c.head?, ¬ IsCont x) {c : GoString} (hc : c ∈ ws)
    (r : GoString) : ∀ x ∈ (c ++ r).head?, ¬ IsCont x := by
  obtain ⟨hne, hx⟩ := h c hc
  cases c with
  | nil => exact absurd rfl hne
  | cons c0 c => simpa using hx

/-- A parenthesized qualifier at the head of a string is removed as a whole. -/
theorem removeParens_qualifier {o inner c : GoString} (ho : o ∈ openParens)
    (hc : c ∈ closeParens) (hinner : Free closeParens inner) (r : GoString) :
    removeParens 0 (o ++ inner ++ c ++ r) = removeParens 0 r := by
  have holen := prefixLen_word (by decide : PrefixFree openParens) ho (inner ++ c ++ r)
  have hone : o ≠ [] := by
    rintro rfl
    revert ho
    decide
  have hchead : ∀ x ∈ (c ++ r).head?, ¬ IsCont x :=
    head_append_not_cont (by decide) hc r
  have hq : Quiet (prefixLen closeParens) inner (c ++ r) :=
    quiet_of_free (by decide) hinner hchead
  have hce : closeEnd (inner ++ (c ++ r)) = some (c.length + inner.length) := by
    rw [closeEnd_quiet hq, closeEnd_word hc]
    rfl
  cases o with
  | nil => exact absurd rfl hone
  | cons o0 o =>
    simp only [List.append_assoc, List.cons_append] at holen ⊢
    rw [removeParens, if_neg (by rw [holen]; simp), holen]
    have hdrop : (o0 :: (o ++ (inner ++ (c ++ r)))).drop (o0 :: o).length
        = inner ++ (c ++ r) := by
      rw [← List.cons_append, List.drop_left]
    rw [hdrop, hce]
    simp only
    have hl : (o0 :: o).length + (c.length + inner.length) - 1 = (o ++ (inner ++ c)).length := by
      simp only [List.length_cons, List.length_append]
      omega
    rw [hl]
    have := removeParens_skip (o ++ (inner ++ c)) r
    simpa only [List.append_assoc] using this

theorem prefixLen_incomparable {ws : List GoString} {a : GoString}
    (h : ∀ w ∈ ws, ¬ w <+: a ∧ ¬ a <+: w) (x : GoString) : prefixLen ws (a ++ x) = 0 := by
  apply prefixLen_eq_zero
  intro w hw hpre
  rcases List.prefix_or_prefix_of_prefix hpre (List.prefix_append a x) with h' | h'
  · exact (h w hw).1 h'
  · exact (h w hw).2 h'

theorem spaceLen_of_free {t : GoString} (h : Free spaceRunes t) : spaceLen t = 0 :=
  prefixLen_eq_zero (fun w hw hpre => h w hw hpre.isInfix)

theorem spaceLenRev_of_free {t : GoString} (h : Free spaceRunes t) :
    spaceLenRev t.reverse = 0 := by
  apply prefixLen_eq_zero
  intro wr hwr hpre
  obtain ⟨w, hw, rfl⟩ := List.mem_map.1 hwr
  rw [List.reverse_prefix] at hpre
  exact h w hw hpre.isInfix

theorem TrimSpace_stop {s : GoString} (h₁ : spaceLen s = 0) (h₂ : spaceLenRev s.reverse = 0) :
    TrimSpace s = s := by
  unfold TrimSpace
  rw [dropDelims_stop _ h₁, dropDelims_stop _ h₂, List.reverse_reverse]

theorem dropDelims_spaces {ws : GoString} (hws : IsSpaces ws) (r : GoString) :
    dropDelims spaceLen 0 (ws ++ r) = dropDelims spaceLen 0 r := by
  induction hws with
  | nil => rfl
  | @cons w t hw _ ih =>
    have hne : w ≠ [] := by
      rintro rfl
      revert hw
      decide
    rw [List.append_assoc, dropDelims_word spaceLen (t ++ r) hne
      (prefixLen_word (by decide : PrefixFree spaceRunes) hw (t ++ r)), ih]

theorem TrimSpace_spaces {ws s : GoString} (hws : IsSpaces ws) (h₁ : spaceLen s = 0)
    (h₂ : spaceLenRev s.reverse = 0) : TrimSpace (ws ++ s) = s := by
  unfold TrimSpace
  rw [dropDelims_spaces hws, dropDelims_stop _ h₁, dropDelims_stop _ h₂, List.reverse_reverse]

theorem not_mem_space_of_free {t : GoString} (h : Free spaceRunes t) : 0x20 ∉ t := by
  intro hm
  obtain ⟨p, q, rfl⟩ := List.append_of_mem hm
  exact h [0x20] (by decide) ⟨p, q, by simp⟩

theorem ReplaceAll_of_not_mem {t : GoString} {old : Nat} (h : old ∉ t) (new : GoString) :
    ReplaceAll t old new = t := by
  unfold ReplaceAll
  induction t with
  | nil => rfl
  | cons a t ih =>
    have ha : a ≠ old := fun e => h (by simp [e])
    rw [List.flatMap_cons, if_neg ha, ih (fun hm => h (List.mem_cons_of_mem _ hm))]
    rfl

/-- The last word of a finding of the shape of C8 is cleaned to the vendor name. -/
theorem cleanPackName_qualified {V o inner c : GoString} (hVs : Free spaceRunes V)
    (hVp : Free (openParens ++ closeParens) V) (ho : o ∈ openParens) (hc : c ∈ closeParens)
    (hinner : Free closeParens inner) : cleanPackName (V ++ o ++ inner ++ c) = V := by
  have hVo : Free openParens V := fun w hw => hVp w (List.mem_append_left _ hw)
  have hq : Quiet (prefixLen openParens) V (o ++ inner ++ c ++ []) := by
    apply quiet_of_free (by decide) hVo
    simp only [List.append_assoc]
    exact head_append_not_cont (by decide) ho _
  have hrem : removeParens 0 (V ++ o ++ inner ++ c) = V := by
    have := removeParens_quiet hq
    rw [removeParens_qualifier ho hc hinner] at this
    simpa [removeParens, List.append_assoc] using this
  unfold cleanPackName
  simp only [hrem, ite_self, List.foldl_cons, List.foldl_nil]
  rw [TrimSpace_stop (spaceLen_of_free hVs) (spaceLenRev_of_free hVs),
    ReplaceAll_of_not_mem (not_mem_space_of_free hVs)]

theorem splitBy_ne_nil (delim : GoString → Nat) (k : Nat) (cur s : GoString) :
    splitBy delim k cur s ≠ [] := by
  induction s generalizing k cur with
  | nil => cases k <;> simp [splitBy]
  | cons a s ih =>
    cases k with
    | zero =>
      rw [splitBy]
      split
      · exact ih _ _
      · simp
    | succ k =>
      rw [splitBy]
      exact ih _ _

theorem spaceRune_ne_nil {w : GoString} (hw : w ∈ spaceRunes) : w ≠ [] := by
  rintro rfl
  revert hw
  decide

theorem splitBy_spaces {ws : GoString} (hws : IsSpaces ws) (r : GoString) :
    (splitBy spaceLen 0 [] (ws ++ r)).filter (fun f => f ≠ [])
      = (splitBy spaceLen 0 [] r).filter (fun f => f ≠ []) := by
  induction hws with
  | nil => rfl
  | @cons w t hw _ ih =>
    rw [List.append_assoc, splitBy_word spaceLen (t ++ r) [] (spaceRune_ne_nil hw)
      (prefixLen_word (by decide : PrefixFree spaceRunes) hw (t ++ r))]
    simpa using ih

/-- Two words without white space, with white space between them, are the two fields. -/
theorem Fields_two {D ws T : GoString} (hD : D ≠ []) (hqD : Quiet spaceLen D (ws ++ T))
    (hws : IsSpaces ws) (hwsne : ws ≠ []) (hT : T ≠ []) (hqT : Quiet spaceLen T []) :
    Fields (D ++ ws ++ T) = [D, T] := by
  unfold Fields
  rw [List.append_assoc, splitBy_quiet spaceLen D (ws ++ T) [] hqD, List.nil_append]
  cases hws with
  | nil => exact absurd rfl hwsne
  | @cons w t hw ht =>
    rw [List.append_assoc, splitBy_word spaceLen (t ++ T) D (spaceRune_ne_nil hw)
      (prefixLen_word (by decide : PrefixFree spaceRunes) hw (t ++ T))]
    rw [List.filter_cons_of_pos (by simpa using hD), splitBy_spaces ht]
    have := splitBy_quiet spaceLen T [] [] hqT
    rw [List.append_nil, List.nil_append, splitBy_nil] at this
    rw [this]
    simp [hT]

theorem Split_before {before sep : GoString} (hsep : sep ≠ []) (loc : GoString)
    (hq : Quiet (prefixLen [sep]) before (sep ++ loc)) :
    ∃ rest, rest ≠ [] ∧ Split (before ++ sep ++ loc) sep = before :: rest := by
  refine ⟨splitBy (prefixLen [sep]) 0 [] loc, splitBy_ne_nil _ _ _ _, ?_⟩
  unfold Split
  rw [List.append_assoc, splitBy_quiet _ before (sep ++ loc) [] hq, List.nil_append,
    splitBy_word _ loc before hsep]
  unfold prefixLen
  simp

theorem mem_spaceRune_of_mem {ws : GoString} (hws : IsSpaces ws) {x : Nat} (hx : x ∈ ws) :
    ∃ w ∈ spaceRunes, x ∈ w := by
  induction hws with
  | nil => cases hx
  | @cons w t hw _ ih =>
    rcases List.mem_append.1 hx with h | h
    · exact ⟨w, hw, h⟩
    · exact ih h

theorem head_spaces {ws : GoString} (hws : IsSpaces ws) (hne : ws ≠ []) (r : GoString) :
    ∃ w ∈ spaceRunes, (ws ++ r).head? = w.head? := by
  cases hws with
  | nil => exact absurd rfl hne
  | @cons w t hw _ =>
    refine ⟨w, hw, ?_⟩
    have := spaceRune_ne_nil hw
    cases w with
    | nil => exact absurd rfl this
    | cons a w => rfl

theorem quiet_arrow_token {a : GoString} (h : 0x20 ∉ a) (b : GoString) :
    Quiet (prefixLen [bytes " -> "]) a b := by
  apply quiet_of_heads _ (by decide)
  intro w hw x hx
  rw [List.mem_singleton] at hw
  subst hw
  have hh : (bytes " -> ").head? = some 0x20 := by decide
  rw [hh, Option.mem_def, Option.some.injEq] at hx
  rw [← hx]
  exact h

theorem quiet_arrow_spaces {ws b : GoString} (hws : IsSpaces ws) (hb : ¬ bytes "-> " <+: b) :
    Quiet (prefixLen [bytes " -> "]) ws b := by
  intro u hu hs
  apply prefixLen_eq_zero
  intro w hw hpre
  rw [List.mem_singleton] at hw
  subst hw
  have hsep : bytes " -> " = 0x20 :: bytes "-> " := by decide
  have harrow : bytes "-> " = 0x2D :: [0x3E, 0x20] := by decide
  rw [hsep] at hpre
  match u, hu, hs with
  | [x], _, _ =>
    rw [List.singleton_append, List.cons_prefix_cons] at hpre
    exact hb hpre.2
  | x :: y :: u, _, hs =>
    rw [List.cons_append, List.cons_append, List.cons_prefix_cons, harrow,
      List.cons_prefix_cons] at hpre
    have hy : y ∈ ws := hs.subset (by simp)
    obtain ⟨w, hw, hyw⟩ := mem_spaceRune_of_mem hws hy
    rw [← hpre.2.1] at hyw
    revert hyw
    revert w
    decide

theorem arrow_not_at_token {tok r : GoString} (hne : tok ≠ []) (h20 : 0x20 ∉ tok)
    (h3E : ∀ x ∈ r.head?, x ≠ 0x3E) (harrow : tok = bytes "->" → ∀ x ∈ r.head?, x ≠ 0x20) :
    ¬ bytes "-> " <+: tok ++ r := by
  have hb : bytes "-> " = [0x2D, 0x3E, 0x20] := by decide
  have ha : bytes "->" = [0x2D, 0x3E] := by decide
  rw [hb]
  rw [ha] at harrow
  intro hpre
  match tok, hne, h20, harrow with
  | [t0], _, _, _ =>
    cases r with
    | nil => simp at hpre
    | cons r0 r =>
      simp only [List.singleton_append, List.cons_prefix_cons] at hpre
      exact h3E r0 (by simp) hpre.2.1.symm
  | [t0, t1], _, _, harrow =>
    cases r with
    | nil => simp at hpre
    | cons r0 r =>
      simp only [List.cons_append, List.nil_append, List.cons_prefix_cons] at hpre
      obtain ⟨h0, h1, h2, -⟩ := hpre
      exact harrow (by rw [h0, h1]) r0 (by simp) h2.symm
  | t0 :: t1 :: t2 :: tok, _, h20, _ =>
    simp only [List.cons_append, List.cons_prefix_cons] at hpre
    exact h20 (by simp [← hpre.2.2.1])

theorem head_spaces_append {ws : GoString} (hws : IsSpaces ws) (hne : ws ≠ []) (r : GoString)
    {P : Nat → Prop} (hP : ∀ w ∈ spaceRunes, ∀ x ∈ w.head?, P x) :
    ∀ x ∈ (ws ++ r).head?, P x := by
  obtain ⟨w, hw, hh⟩ := head_spaces hws hne r
  rw [hh]
  exact hP w hw

theorem head_paren_append {o : GoString} (ho : o ∈ openParens ++ closeParens) (r : GoString)
    {P : Nat → Prop} (hP : ∀ w ∈ openParens ++ closeParens, ∀ x ∈ w.head?, P x) :
    ∀ x ∈ (o ++ r).head?, P x := by
  have hne : o ≠ [] := by
    rintro rfl
    revert ho
    decide
  cases o with
  | nil => exact absurd rfl hne
  | cons a o => exact hP (a :: o) ho

/-- A finding of the shape of C8 adds the vendor name `V` to the names found so far. -/
theorem addPackName_shape (ws₁ D ws₂ V o inner c loc : GoString)
    (hws₁ : IsSpaces ws₁) (hD : D ≠ []) (hDs : Free spaceRunes D) (hDa : D ≠ bytes "->")
    (hws₂ : IsSpaces ws₂) (hws₂ne : ws₂ ≠ [])
    (hV : V ≠ []) (hVs : Free spaceRunes V) (hVp : Free (openParens ++ closeParens) V)
    (ho : o ∈ openParens) (hc : c ∈ closeParens)
    (his : Free spaceRunes inner) (hic : Free closeParens inner) :
    addPackName [] (ws₁ ++ D ++ ws₂ ++ V ++ o ++ inner ++ c ++ bytes " -> " ++ loc) = [V] := by
  have ho' : o ∈ openParens ++ closeParens := List.mem_append_left _ ho
  have hc' : c ∈ openParens ++ closeParens := List.mem_append_right _ hc
  have hT : V ++ (o ++ (inner ++ c)) ≠ [] := by simp [hV]
  -- white space
  have qc : Quiet spaceLen c [] :=
    quiet_of_heads ((by decide : ∀ p ∈ openParens ++ closeParens, ∀ w ∈ spaceRunes,
      ∀ x ∈ w.head?, x ∉ p) c hc') (fun w hw => spaceRune_ne_nil hw) []
  have qi : Quiet spaceLen inner (c ++ []) :=
    quiet_of_free (by decide) his (head_paren_append hc' [] (by decide))
  have qo : Quiet spaceLen o (inner ++ c ++ []) :=
    quiet_of_heads ((by decide : ∀ p ∈ openParens ++ closeParens, ∀ w ∈ spaceRunes,
      ∀ x ∈ w.head?, x ∉ p) o ho') (fun w hw => spaceRune_ne_nil hw) _
  have qV : Quiet spaceLen V (o ++ (inner ++ c) ++ []) :=
    quiet_of_free (by decide) hVs (by
      rw [List.append_assoc]
      exact head_paren_append ho' _ (by decide))
  have qT : Quiet spaceLen (V ++ (o ++ (inner ++ c))) [] :=
    quiet_append qV (quiet_append qo (quiet_append qi qc))
  have qD : Quiet spaceLen D (ws₂ ++ (V ++ (o ++ (inner ++ c)))) :=
    quiet_of_free (by decide) hDs (head_spaces_append hws₂ hws₂ne _ (by decide))
  have hFields : Fields (D ++ ws₂ ++ (V ++ (o ++ (inner ++ c))))
      = [D, V ++ (o ++ (inner ++ c))] := Fields_two hD qD hws₂ hws₂ne hT qT
  have hX₁ : spaceLen (D ++ ws₂ ++ (V ++ (o ++ (inner ++ c)))) = 0 := by
    have := qD D hD (List.suffix_refl _)
    rwa [← List.append_assoc] at this
  have hX₂ : spaceLenRev (D ++ ws₂ ++ (V ++ (o ++ (inner ++ c)))).reverse = 0 := by
    simp only [List.reverse_append, List.append_assoc]
    exact prefixLen_incomparable ((by decide : ∀ p ∈ closeParens,
      ∀ w ∈ spaceRunes.map List.reverse, ¬ w <+: p.reverse ∧ ¬ p.reverse <+: w) c hc) _
  have hTrim : TrimSpace (ws₁ ++ (D ++ ws₂ ++ (V ++ (o ++ (inner ++ c)))))
      = D ++ ws₂ ++ (V ++ (o ++ (inner ++ c))) := TrimSpace_spaces hws₁ hX₁ hX₂
  -- the arrow
  have h20D := not_mem_space_of_free hDs
  have h20V := not_mem_space_of_free hVs
  have h20i := not_mem_space_of_free his
  have h20o : 0x20 ∉ o := (by decide : ∀ p ∈ openParens ++ closeParens, 0x20 ∉ p) o ho'
  have h20c : 0x20 ∉ c := (by decide : ∀ p ∈ openParens ++ closeParens, 0x20 ∉ p) c hc'
  have qarrow : Quiet (prefixLen [bytes " -> "])
      (ws₁ ++ (D ++ (ws₂ ++ (V ++ (o ++ (inner ++ c)))))) (bytes " -> " ++ loc) := by
    refine quiet_append (quiet_arrow_spaces hws₁ ?_) (quiet_append (quiet_arrow_token h20D _)
      (quiet_append (quiet_arrow_spaces hws₂ ?_) (quiet_append (quiet_arrow_token h20V _)
        (quiet_append (quiet_arrow_token h20o _) (quiet_append (quiet_arrow_token h20i _)
          (quiet_arrow_token h20c _))))))
    · rw [List.append_assoc D, List.append_assoc ws₂]
      exact arrow_not_at_token hD h20D (head_spaces_append hws₂ hws₂ne _ (by decide))
        (fun h => absurd h hDa)
    · rw [List.append_assoc V, List.append_assoc o]
      exact arrow_not_at_token hV h20V (head_paren_append ho' _ (by decide))
        (fun _ => head_paren_append ho' _ (by decide))
  obtain ⟨rest, hrest, hsplit⟩ := Split_before (by decide : bytes " -> " ≠ []) loc qarrow
  have hlen : (Split (ws₁ ++ (D ++ ws₂ ++ (V ++ (o ++ (inner ++ c)))) ++ bytes " -> " ++ loc)
      (bytes " -> ")).length ≥ 2 := by
    simp only [List.append_assoc] at hsplit ⊢
    rw [hsplit]
    cases rest with
    | nil => exact absurd rfl hrest
    | cons a rest => simp
  have hhead : (Split (ws₁ ++ (D ++ ws₂ ++ (V ++ (o ++ (inner ++ c)))) ++ bytes " -> " ++ loc)
      (bytes " -> ")).headD [] = ws₁ ++ (D ++ ws₂ ++ (V ++ (o ++ (inner ++ c)))) := by
    simp only [List.append_assoc] at hsplit ⊢
    rw [hsplit]
    rfl
  have hclean : cleanPackName (V ++ (o ++ (inner ++ c))) = V := by
    have := cleanPackName_qualified hVs hVp ho hc hic
    simpa only [List.append_assoc] using this
  have hshape : ws₁ ++ D ++ ws₂ ++ V ++ o ++ inner ++ c ++ bytes " -> " ++ loc
      = ws₁ ++ (D ++ ws₂ ++ (V ++ (o ++ (inner ++ c)))) ++ bytes " -> " ++ loc := by
    simp only [List.append_assoc]
  rw [hshape]
  unfold addPackName
  simp only [hlen, hhead, hTrim, hFields, if_true]
  simp [hclean, hV]

theorem isSpaces_replicate (n : Nat) : IsSpaces (List.replicate n 0x20) := by
  induction n with
  | zero => exact IsSpaces.nil
  | succ n ih => exact IsSpaces.cons (w := [0x20]) (by decide) ih

/-- C8, as amended: for a findings list of one line
`<white space><descriptor><white space><V><qualifier> -> <location>`, where the descriptor is
a non-empty token without white space other than `->`, `V` is a non-empty token without white
space or parentheses and the qualifier is an opening parenthesis (ASCII or fullwidth), a
text without white space and without closing parenthesis, and a closing parenthesis, the
label is exactly `V`. -/
theorem qualified_vendor_label (rangeOrder : List GoString → List GoString)
    (hro : IsRangeOrder rangeOrder) (ws₁ D ws₂ V o inner c loc : GoString)
    (hws₁ : IsSpaces ws₁) (hD : D ≠ []) (hDs : Free spaceRunes D) (hDa : D ≠ bytes "->")
    (hws₂ : IsSpaces ws₂) (hws₂ne : ws₂ ≠ [])
    (hV : V ≠ []) (hVs : Free spaceRunes V) (hVp : Free (openParens ++ closeParens) V)
    (ho : o ∈ openParens) (hc : c ∈ closeParens)
    (his : Free spaceRunes inner) (hic : Free closeParens inner) :
    GetPackInfoFromResults rangeOrder
      [ws₁ ++ D ++ ws₂ ++ V ++ o ++ inner ++ c ++ bytes " -> " ++ loc] = V := by
  unfold GetPackInfoFromResults
  rw [List.foldl_cons, List.foldl_nil,
    addPackName_shape ws₁ D ws₂ V o inner c loc hws₁ hD hDs hDa hws₂ hws₂ne hV hVs hVp ho hc
      his hic]
  simp only [List.length_singleton, Nat.succ_ne_zero, if_false]
  rw [List.perm_singleton.1 (hro [V])]
  simp [Join, List.intercalate, List.intersperse]

set_option maxRecDepth 100000 in
/-- Witness of C8: the finding of the specification, whose qualifier opens with a fullwidth
and closes with an ASCII parenthesis. -/
theorem qualified_vendor_label_witness :
    GetPackInfoFromResults id [bytes "    Sopath  VendorX（Pro) -> assets/lib.so"]
      = bytes "VendorX" :=
  qualified_vendor_label id (fun _ => List.Perm.refl _) (List.replicate 4 0x20) (bytes "Sopath")
    (List.replicate 2 0x20) (bytes "VendorX") (bytes "（") (bytes "Pro") (bytes ")")
    (bytes "assets/lib.so") (isSpaces_replicate 4) (by decide) (by decide) (by decide)
    (isSpaces_replicate 2) (by decide) (by decide) (by decide) (by decide) (by decide)
    (by decide) (by decide) (by decide)

set_option maxRecDepth 100000 in
/-- Counterexample to C8 as stated: with the descriptor token `->` between two spaces the
line is cut at the first arrow, no word is left before it, and the label is `无加固`. -/
theorem qualified_vendor_counterexample :
    bytes "  ->  VendorX(Pro) -> assets/lib.so"
      = List.replicate 2 0x20 ++ bytes "->" ++ List.replicate 2 0x20 ++ bytes "VendorX" ++
          bytes "(" ++ bytes "Pro" ++ bytes ")" ++ bytes " -> " ++ bytes "assets/lib.so" ∧
    bytes "->" ≠ [] ∧ Free spaceRunes (bytes "->") ∧
    GetPackInfoFromResults id [bytes "  ->  VendorX(Pro) -> assets/lib.so"] = bytes "无加固" ∧
    GetPackInfoFromResults id [bytes "  ->  VendorX(Pro) -> assets/lib.so"]
      ≠ bytes "VendorX" := by
  decide

/-- C9, as amended: the label is the underscore-join of the distinct vendor names in the
order of the map iteration, some rearrangement of their first-seen order; two evaluations
on the same list agree when the list yields at most one vendor name. -/
theorem label_up_to_range_order (rangeOrder₁ rangeOrder₂ : List GoString → List GoString)
    (h₁ : IsRangeOrder rangeOrder₁) (h₂ : IsRangeOrder rangeOrder₂)
    (allPackResults : List GoString) :
    (allPackResults.foldl addPackName [] ≠ [] →
      ∃ names, names.Perm (allPackResults.foldl addPackName []) ∧
        GetPackInfoFromResults rangeOrder₁ allPackResults = Join names (bytes "_")) ∧
    ((allPackResults.foldl addPackName []).length ≤ 1 →
      GetPackInfoFromResults rangeOrder₁ allPackResults
        = GetPackInfoFromResults rangeOrder₂ allPackResults) := by
  constructor
  · intro hne
    refine ⟨rangeOrder₁ (allPackResults.foldl addPackName []), h₁ _, ?_⟩
    unfold GetPackInfoFromResults
    have hres : allPackResults.length ≠ 0 := by
      intro h0
      rw [List.length_eq_zero] at h0
      subst h0
      exact hne rfl
    have hlen : (allPackResults.foldl addPackName []).length ≠ 0 := by
      rwa [Ne, List.length_eq_zero]
    simp only [if_neg hres, if_neg hlen]
  · intro hle
    unfold GetPackInfoFromResults
    have hsame : rangeOrder₁ (allPackResults.foldl addPackName [])
        = rangeOrder₂ (allPackResults.foldl addPackName []) := by
      have p₁ := h₁ (allPackResults.foldl addPackName [])
      have p₂ := h₂ (allPackResults.foldl addPackName [])
      match hn : allPackResults.foldl addPackName [], hle with
      | [], _ =>
        rw [hn] at p₁ p₂
        rw [List.perm_nil.1 p₁, List.perm_nil.1 p₂]
      | [a], _ =>
        rw [hn] at p₁ p₂
        rw [List.perm_singleton.1 p₁, List.perm_singleton.1 p₂]
      | _ :: _ :: _, hle => simp at hle
    simp only [hsame]

set_option maxRecDepth 100000 in
/-- Witness of C9 as amended: one vendor found twice. -/
theorem label_up_to_range_order_witness :
    GetPackInfoFromResults id
        [bytes "    Sopath  VendorA -> assets/liba.so", bytes "    Sopath  VendorA -> lib/b.so"]
      = GetPackInfoFromResults List.reverse
        [bytes "    Sopath  VendorA -> assets/liba.so", bytes "    Sopath  VendorA -> lib/b.so"] :=
  (label_up_to_range_order id List.reverse (fun _ => List.Perm.refl _)
    (fun keys => List.reverse_perm keys)
    [bytes "    Sopath  VendorA -> assets/liba.so", bytes "    Sopath  VendorA -> lib/b.so"]).2
    (by decide)

set_option maxRecDepth 100000 in
/-- Counterexample to C9 as stated: two iteration orders that a `range` over the map may
take give two different labels for the same findings list. -/
theorem label_order_counterexample :
    IsRangeOrder id ∧ IsRangeOrder List.reverse ∧
    GetPackInfoFromResults id twoVendors = bytes "VendorA_VendorB" ∧
    GetPackInfoFromResults List.reverse twoVendors = bytes "VendorB_VendorA" ∧
    GetPackInfoFromResults id twoVendors ≠ GetPackInfoFromResults List.reverse twoVendors :=
  ⟨fun _ => List.Perm.refl _, fun keys => List.reverse_perm keys, by decide, by decide,
    by decide⟩

/-! ## The renamer -/

/-- C10: when the composed name is not longer than 200 bytes, the file name is
`L_D_P_V.apk` for a non-empty version name `V` and `L_D_P.apk` for an empty one. -/
theorem newFileName_composed (apkInfo : APKInfo) (packInfo : GoString)
    (hlen : (packInfo ++ bytes "_" ++ apkInfo.AppName ++ bytes "_" ++ apkInfo.PackageName ++
      (if apkInfo.VersionName = [] then [] else bytes "_" ++ apkInfo.VersionName) ++
      bytes ".apk").length ≤ 200) :
    (apkInfo.VersionName ≠ [] →
      newFileName apkInfo packInfo
        = packInfo ++ bytes "_" ++ apkInfo.AppName ++ bytes "_" ++ apkInfo.PackageName ++
            bytes "_" ++ apkInfo.VersionName ++ bytes ".apk") ∧
    (apkInfo.VersionName = [] →
      newFileName apkInfo packInfo
        = packInfo ++ bytes "_" ++ apkInfo.AppName ++ bytes "_" ++ apkInfo.PackageName ++
            bytes ".apk") := by
  constructor
  · intro hv
    rw [if_neg hv] at hlen
    simp only [List.append_assoc] at hlen
    unfold newFileName
    simp only [hv, ne_eq, not_false_eq_true, if_true]
    have hj : Join ([packInfo, apkInfo.AppName, apkInfo.PackageName] ++ [apkInfo.VersionName])
          (bytes "_") ++ bytes ".apk"
        = packInfo ++ bytes "_" ++ apkInfo.AppName ++ bytes "_" ++ apkInfo.PackageName ++
            bytes "_" ++ apkInfo.VersionName ++ bytes ".apk" := by
      simp [Join, List.intercalate, List.intersperse]
    rw [hj, if_neg (by simp only [List.append_assoc]; omega)]
  · intro hv
    rw [if_pos hv, List.append_nil] at hlen
    unfold newFileName
    simp only [hv, ne_eq, not_true_eq_false, if_false]
    have hj : Join [packInfo, apkInfo.AppName, apkInfo.PackageName] (bytes "_") ++ bytes ".apk"
        = packInfo ++ bytes "_" ++ apkInfo.AppName ++ bytes "_" ++ apkInfo.PackageName ++
            bytes ".apk" := by
      simp [Join, List.intercalate, List.intersperse]
    rw [hj, if_neg (by omega)]

set_option maxRecDepth 100000 in
/-- Witness of C10: label `无加固`, display name `My App`, package `com.example.app`, version
`1.2.3`. -/
theorem newFileName_composed_witness :
    newFileName exampleInfo (bytes "无加固") = bytes "无加固_My App_com.example.app_1.2.3.apk" :=
  (newFileName_composed exampleInfo (bytes "无加固") (by decide)).1 (by decide)

theorem TrimSuffix_append (x s : GoString) : TrimSuffix (x ++ s) s = x := by
  unfold TrimSuffix HasSuffix
  have h : s.isSuffixOf (x ++ s) = true := by
    rw [List.isSuffixOf_iff_suffix]
    exact List.suffix_append x s
  rw [if_pos h, List.length_append, Nat.add_sub_cancel, List.take_left]

theorem Join_parts (apkInfo : APKInfo) (packInfo : GoString) :
    Join (if apkInfo.VersionName ≠ [] then
        [packInfo, apkInfo.AppName, apkInfo.PackageName] ++ [apkInfo.VersionName]
      else [packInfo, apkInfo.AppName, apkInfo.PackageName]) (bytes "_")
      = composedBase apkInfo packInfo := by
  unfold composedBase
  by_cases hv : apkInfo.VersionName = []
  · simp [hv, Join, List.intercalate, List.intersperse]
  · simp [hv, Join, List.intercalate, List.intersperse]

theorem newFileName_eq (apkInfo : APKInfo) (packInfo : GoString) :
    newFileName apkInfo packInfo =
      if (composedBase apkInfo packInfo ++ bytes ".apk").length > 200 then
        (composedBase apkInfo packInfo).take 196 ++ bytes ".apk"
      else composedBase apkInfo packInfo ++ bytes ".apk" := by
  unfold newFileName
  simp only [Join_parts, TrimSuffix_append]
  split
  · rename_i h
    have h4 : (bytes ".apk").length = 4 := by decide
    rw [List.length_append, h4] at h
    rw [if_pos (by omega)]
  · rfl

/-- C11, as amended: lengths are byte lengths (Go's `len`).  A composed name of more than 200
bytes, extension included, becomes the first 196 bytes of its name portion followed by
`.apk`, 200 bytes in all; a composed name of at most 200 bytes is used unchanged. -/
theorem newFileName_truncated (apkInfo : APKInfo) (packInfo : GoString) :
    ((composedBase apkInfo packInfo ++ bytes ".apk").length > 200 →
      newFileName apkInfo packInfo = (composedBase apkInfo packInfo).take 196 ++ bytes ".apk" ∧
      (newFileName apkInfo packInfo).length = 200) ∧
    ((composedBase apkInfo packInfo ++ bytes ".apk").length ≤ 200 →
      newFileName apkInfo packInfo = composedBase apkInfo packInfo ++ bytes ".apk") := by
  have h4 : (bytes ".apk").length = 4 := by decide
  constructor
  · intro h
    rw [newFileName_eq, if_pos h]
    refine ⟨rfl, ?_⟩
    rw [List.length_append, h4] at h
    rw [List.length_append, List.length_take, h4]
    omega
  · intro h
    rw [newFileName_eq, if_neg (by omega)]

set_option maxRecDepth 100000 in
/-- Witness of C11 as amended: a base of 230 bytes is cut to 196 bytes, 200 with `.apk`. -/
theorem newFileName_truncated_witness :
    (composedBase { AppName := List.replicate 227 0x61 } (bytes "L")).length = 230 ∧
    newFileName { AppName := List.replicate 227 0x61 } (bytes "L")
      = bytes "L_" ++ List.replicate 194 0x61 ++ bytes ".apk" ∧
    (newFileName { AppName := List.replicate 227 0x61 } (bytes "L")).length = 200 := by
  have h := (newFileName_truncated { AppName := List.replicate 227 0x61 } (bytes "L")).1
    (by decide)
  refine ⟨by decide, ?_, h.2⟩
  rw [h.1]
  decide

set_option maxRecDepth 100000 in
/-- Counterexample to C11 as stated: a composed name of 79 characters, 219 bytes, is not
used unchanged; it is cut to 200 bytes, in the middle of a character. -/
theorem newFileName_characters_counterexample :
    RuneCountInString (composedBase wideInfo (bytes "ab") ++ bytes ".apk") = 79 ∧
    (composedBase wideInfo (bytes "ab") ++ bytes ".apk").length = 219 ∧
    newFileName wideInfo (bytes "ab") ≠ composedBase wideInfo (bytes "ab") ++ bytes ".apk" ∧
    (newFileName wideInfo (bytes "ab")).length = 200 ∧
    RuneCountInString (newFileName wideInfo (bytes "ab")) = 72 := by
  decide

theorem Trim_tidy_ends (s cutset : GoString) :
    (∀ b ∈ (Trim s cutset).head?, b ∉ cutset) ∧ (∀ b ∈ (Trim s cutset).getLast?, b ∉ cutset) := by
  unfold Trim
  constructor
  · intro b hb
    have hpre := List.rdropWhile_prefix (fun b => cutset.contains b)
      (s.dropWhile (fun b => cutset.contains b))
    have hb' : b ∈ (s.dropWhile (fun b => cutset.contains b)).head? := by
      obtain ⟨t, ht⟩ := hpre
      rw [← ht]
      cases hr : (s.dropWhile (fun b => cutset.contains b)).rdropWhile
          (fun b => cutset.contains b) with
      | nil => rw [hr] at hb; cases hb
      | cons a l => rw [hr] at hb; simpa using hb
    have := List.head?_dropWhile_not (fun b => cutset.contains b) s
    rw [Option.mem_def] at hb'
    rw [hb'] at this
    simpa using this
  · intro b hb
    rw [Option.mem_def, List.getLast?_eq_some_iff] at hb
    obtain ⟨ys, hys⟩ := hb
    have hne : (s.dropWhile (fun b => cutset.contains b)).rdropWhile
        (fun b => cutset.contains b) ≠ [] := by
      rw [hys]
      simp
    have := List.rdropWhile_last_not (fun b => cutset.contains b) _ hne
    simp only [hys, List.getLast_append_singleton] at this
    simpa using this

theorem cleanString_tidy (s : GoString) : Tidy (cleanString s) := by
  refine ⟨cleanString_legal s, ?_⟩
  unfold cleanString
  simp only
  split
  · decide
  · exact Trim_tidy_ends _ _

/-- C20: `cleanString` is idempotent. -/
theorem cleanString_idempotent (s : GoString) :
    cleanString (cleanString s) = cleanString s :=
  cleanString_of_tidy (cleanString_ne_nil s) (cleanString_tidy s)

/-- C19: the result of the manifest extractor does not depend on the order in which the
four patterns are applied: two orders that visit the same keys leave every initial record in
the same final state, for every archive. -/
theorem manifest_order_irrelevant (order₁ order₂ : List ManifestKey)
    (h : order₁.Perm order₂) (files : List ZipFile) (info : APKInfo) :
    parseManifestFromZip order₁ files info = parseManifestFromZip order₂ files info ∧
    ∀ manifestStr : GoString,
      order₁.foldl (manifestStep manifestStr) info
        = order₂.foldl (manifestStep manifestStr) info := by
  have hfold : ∀ (manifestStr : GoString) (info : APKInfo),
      order₁.foldl (manifestStep manifestStr) info
        = order₂.foldl (manifestStep manifestStr) info := by
    intro m info
    rw [foldl_manifestStep, foldl_manifestStep]
    simp only [h.mem_iff]
  refine ⟨?_, fun m => hfold m info⟩
  induction files generalizing info with
  | nil => rfl
  | cons f files ih =>
    rw [parseManifestFromZip, parseManifestFromZip]
    split
    · cases f.content with
      | none => exact ih info
      | some m => exact hfold m info
    · exact ih info

set_option maxRecDepth 100000 in
/-- Witness of C19: the keys in their written order and in reverse order. -/
theorem manifest_order_irrelevant_witness :
    parseManifestFromZip manifestKeys [⟨bytes "AndroidManifest.xml", some exampleManifest⟩]
        { FilePath := bytes "dir/app.apk" }
      = parseManifestFromZip manifestKeys.reverse
          [⟨bytes "AndroidManifest.xml", some exampleManifest⟩]
          { FilePath := bytes "dir/app.apk" } :=
  (manifest_order_irrelevant manifestKeys manifestKeys.reverse
    (List.reverse_perm manifestKeys).symm
    [⟨bytes "AndroidManifest.xml", some exampleManifest⟩] { FilePath := bytes "dir/app.apk" }).1

theorem findSome_append_miss {α β : Type} (f : α → Option β) {l₁ : List α}
    (h : ∀ a ∈ l₁, f a = none) (l₂ : List α) :
    (l₁ ++ l₂).findSome? f = l₂.findSome? f := by
  induction l₁ with
  | nil => rfl
  | cons a l₁ ih =>
    rw [List.cons_append, List.findSome?_cons, h a (List.mem_cons_self _ _)]
    exact ih (fun b hb => h b (List.mem_cons_of_mem _ hb))

theorem firstStringsMatch_of_key {x N k : GoString} {ks₁ ks₂ : List GoString}
    (hkeys : stringsKeys = ks₁ ++ k :: ks₂)
    (hmiss : ∀ k' ∈ ks₁, (stringPattern k').FindStringSubmatch x = none)
    (hhit : (stringPattern k).FindStringSubmatch x = some N) :
    firstStringsMatch x = some N := by
  have hp : stringsPatterns = stringsKeys.map stringPattern := rfl
  unfold firstStringsMatch
  rw [hp, hkeys, List.map_append, findSome_append_miss]
  · rw [List.map_cons, List.findSome?_cons, hhit]
  · intro p hp
    obtain ⟨k', hk', rfl⟩ := List.mem_map.1 hp
    exact hmiss k' hk'

/-- C16: `parseStringsFromZip` sets the display name to the trimmed capture taken from the
earliest entry of the listing that passes the path test and in which one of the four keys
matches, by the first key of the slice that matches there; what follows that entry is not
consulted.  Without such an entry the record is left as it is. -/
theorem strings_earliest_entry (pre post : List ZipFile) (name x N k : GoString)
    (ks₁ ks₂ : List GoString) (info : APKInfo)
    (hpre : NoStrings pre) (hname : IsStringsPath name)
    (hkeys : stringsKeys = ks₁ ++ k :: ks₂)
    (hmiss : ∀ k' ∈ ks₁, (stringPattern k').FindStringSubmatch x = none)
    (hhit : (stringPattern k).FindStringSubmatch x = some N) :
    parseStringsFromZip (pre ++ ⟨name, some x⟩ :: post) info
      = { info with AppName := TrimSpace N } ∧
    ∀ files : List ZipFile, NoStrings files → parseStringsFromZip files info = info := by
  refine ⟨parseStrings_found hpre hname (firstStringsMatch_of_key hkeys hmiss hhit) post info,
    ?_⟩
  intro files hfiles
  have := parseStrings_skip hfiles [] info
  rwa [List.append_nil] at this

set_option maxRecDepth 100000 in
/-- Witness of C16: the third entry is the first with a match, its key `app_title` comes
before `title` in the slice, and the later definition of `app_name` is not used. -/
theorem strings_earliest_entry_witness :
    parseStringsFromZip stringsArchive { FilePath := bytes "dir/app.apk" }
      = { AppName := bytes "Second", FilePath := bytes "dir/app.apk" } := by
  have h := (strings_earliest_entry (stringsArchive.take 2) (stringsArchive.drop 3)
    (bytes "res/values/strings.xml") titleStrings (bytes " Second ") (bytes "app_title")
    [bytes "app_name"] [bytes "application_name", bytes "title"]
    { FilePath := bytes "dir/app.apk" }
    (by decide) (by decide) (by decide) (by decide) (by decide)).1
  have ht : TrimSpace (bytes " Second ") = bytes "Second" := by decide
  rw [ht] at h
  exact h

theorem addPackName_eq (packNames : List GoString) (result : GoString) :
    addPackName packNames result =
      match vendorName result with
      | some v => if v ∈ packNames then packNames else packNames ++ [v]
      | none => packNames := by
  unfold addPackName vendorName
  simp only
  split
  · split
    · split
      · rfl
      · rfl
    · rfl
  · rfl

theorem foldl_addPackName_nodup (results : List GoString) (acc : List GoString)
    (hacc : acc.Nodup) : (results.foldl addPackName acc).Nodup := by
  induction results generalizing acc with
  | nil => exact hacc
  | cons r rs ih =>
    rw [List.foldl_cons]
    apply ih
    rw [addPackName_eq]
    cases vendorName r with
    | none => exact hacc
    | some v =>
      simp only
      split
      · exact hacc
      · rename_i hv
        rw [List.nodup_append]
        exact ⟨hacc, List.nodup_singleton v, by
          intro a ha hb
          rw [List.mem_singleton] at hb
          subst hb
          exact hv ha⟩

theorem mem_foldl_addPackName (results : List GoString) (acc : List GoString) (v : GoString) :
    v ∈ results.foldl addPackName acc ↔ v ∈ acc ∨ ∃ r ∈ results, vendorName r = some v := by
  induction results generalizing acc with
  | nil => simp
  | cons r rs ih =>
    rw [List.foldl_cons, ih, addPackName_eq]
    cases hr : vendorName r with
    | none => simp [hr]
    | some w =>
      simp only
      by_cases hw : w ∈ acc
      · rw [if_pos hw]
        constructor
        · rintro (h | ⟨r', hr', hv⟩)
          · exact Or.inl h
          · exact Or.inr ⟨r', List.mem_cons_of_mem _ hr', hv⟩
        · rintro (h | ⟨r', hr', hv⟩)
          · exact Or.inl h
          · rcases List.mem_cons.1 hr' with rfl | hr''
            · rw [hr] at hv
              cases hv
              exact Or.inl hw
            · exact Or.inr ⟨r', hr'', hv⟩
      · rw [if_neg hw]
        constructor
        · rintro (h | ⟨r', hr', hv⟩)
          · rcases List.mem_append.1 h with h | h
            · exact Or.inl h
            · rw [List.mem_singleton] at h
              subst h
              exact Or.inr ⟨r, List.mem_cons_self _ _, hr⟩
          · exact Or.inr ⟨r', List.mem_cons_of_mem _ hr', hv⟩
        · rintro (h | ⟨r', hr', hv⟩)
          · exact Or.inl (List.mem_append_left _ h)
          · rcases List.mem_cons.1 hr' with rfl | hr''
            · rw [hr] at hv
              cases hv
              exact Or.inl (List.mem_append_right _ (List.mem_singleton_self _))
            · exact Or.inr ⟨r', hr'', hv⟩

/-- C17: when some finding gives a vendor name, the label is the underscore-join of a list
without repetition whose members are exactly the vendor names that the findings give: every
vendor appears, each once, and findings without a vendor name add nothing. -/
theorem label_joins_distinct_vendors (rangeOrder : List GoString → List GoString)
    (hro : IsRangeOrder rangeOrder) (allPackResults : List GoString)
    (h : ∃ r ∈ allPackResults, ∃ v, vendorName r = some v) :
    ∃ names : List GoString, names.Nodup ∧
      (∀ v, v ∈ names ↔ ∃ r ∈ allPackResults, vendorName r = some v) ∧
      names.Perm (allPackResults.foldl addPackName []) ∧
      GetPackInfoFromResults rangeOrder allPackResults = Join names (bytes "_") := by
  obtain ⟨r, hr, v, hv⟩ := h
  have hperm := hro (allPackResults.foldl addPackName [])
  refine ⟨rangeOrder (allPackResults.foldl addPackName []), ?_, ?_, hperm, ?_⟩
  · exact hperm.nodup_iff.2 (foldl_addPackName_nodup _ _ List.nodup_nil)
  · intro w
    rw [hperm.mem_iff, mem_foldl_addPackName]
    simp
  · have hmem : v ∈ allPackResults.foldl addPackName [] :=
      (mem_foldl_addPackName _ _ _).2 (Or.inr ⟨r, hr, hv⟩)
    have hres : allPackResults.length ≠ 0 := by
      intro h0
      rw [List.length_eq_zero] at h0
      subst h0
      cases hr
    have hlen : (allPackResults.foldl addPackName []).length ≠ 0 := by
      intro h0
      rw [List.length_eq_zero] at h0
      rw [h0] at hmem
      cases hmem
    unfold GetPackInfoFromResults
    simp only [if_neg hres, if_neg hlen]

set_option maxRecDepth 100000 in
/-- Witness of C17: five findings, two vendors. -/
theorem label_joins_distinct_vendors_witness :
    GetPackInfoFromResults id mixedFindings = bytes "VendorA_VendorB" ∧
    ∃ names : List GoString, names.Nodup ∧
      (∀ v, v ∈ names ↔ ∃ r ∈ mixedFindings, vendorName r = some v) ∧
      names.Perm (mixedFindings.foldl addPackName []) ∧
      GetPackInfoFromResults id mixedFindings = Join names (bytes "_") :=
  ⟨by decide, label_joins_distinct_vendors id (fun _ => List.Perm.refl _) mixedFindings
    ⟨bytes "    Sopath  VendorA -> assets/liba.so", by decide, bytes "VendorA", by decide⟩⟩

/-! ## The external-tool extractor -/

theorem matchAt_token (p : Pattern) (value rest : GoString) (hne : value ≠ [])
    (hq : p.stop ∉ value) :
    p.matchAt (p.pre ++ value ++ p.stop :: p.post ++ rest) = some value := by
  unfold Pattern.matchAt
  have hpre : p.pre.isPrefixOf (p.pre ++ value ++ p.stop :: p.post ++ rest) = true := by
    rw [List.isPrefixOf_iff_prefix]
    simp only [List.append_assoc]
    exact List.prefix_append _ _
  have hdrop : (p.pre ++ value ++ p.stop :: p.post ++ rest).drop p.pre.length
      = value ++ p.stop :: (p.post ++ rest) := by
    simp only [List.append_assoc, List.cons_append]
    rw [List.drop_left]
  have htake : (value ++ p.stop :: (p.post ++ rest)).takeWhile (fun b => b != p.stop)
      = value := by
    rw [List.takeWhile_append_of_pos, List.takeWhile_cons_of_neg (by simp), List.append_nil]
    intro b hb
    have : b ≠ p.stop := fun e => hq (e ▸ hb)
    simpa using this
  rw [if_pos hpre]
  simp only [hdrop, htake]
  have hpost : (p.stop :: p.post).isPrefixOf
      ((value ++ p.stop :: (p.post ++ rest)).drop value.length) = true := by
    rw [List.drop_left, List.isPrefixOf_iff_prefix]
    exact ⟨rest, rfl⟩
  rw [if_pos ⟨hne, hpost⟩]

theorem matchAt_none_of_not_pre (p : Pattern) {s : GoString} (h : ¬ p.pre <+: s) :
    p.matchAt s = none := by
  unfold Pattern.matchAt
  rw [if_neg]
  rw [List.isPrefixOf_iff_prefix]
  exact h

theorem FindStringSubmatch_first (p : Pattern) (a value rest : GoString)
    (hfirst : ∀ u ∈ a.tails, u ≠ [] → ¬ p.pre <+: u ++ p.pre ++ value ++ p.stop :: p.post ++ rest)
    (hne : value ≠ []) (hq : p.stop ∉ value) :
    p.FindStringSubmatch (a ++ p.pre ++ value ++ p.stop :: p.post ++ rest) = some value := by
  induction a with
  | nil =>
    have hm := matchAt_token p value rest hne hq
    rw [List.nil_append]
    cases hs : p.pre ++ value ++ p.stop :: p.post ++ rest with
    | nil => simp at hs
    | cons b s =>
      rw [hs] at hm
      rw [Pattern.FindStringSubmatch, hm]
  | cons x a ih =>
    have hx := hfirst (x :: a) (by simp) (by simp)
    have hnone := matchAt_none_of_not_pre p hx
    simp only [List.cons_append] at hnone ⊢
    rw [Pattern.FindStringSubmatch, hnone]
    simp only
    apply ih
    intro u hu hune
    exact hfirst u (by simp [hu]) hune

theorem FindStringSubmatch_firstToken {key value s : GoString} (h : FirstToken key value s) :
    (Pattern.mk key 0x27 []).FindStringSubmatch s = some value := by
  obtain ⟨a, rest, rfl, hfirst, hne, hq⟩ := h
  have := FindStringSubmatch_first (Pattern.mk key 0x27 []) a value rest
    (by simpa using hfirst) hne hq
  simpa using this

/-- C18, as amended: for a line of the badging dump that, trimmed, starts with `package:`
and in which the first occurrence of each of the texts `name='`, `versionName='` and
`versionCode='` is followed by a non-empty value without single quote and a single quote,
the line parser sets the package name, the version name and the version code to these three
values and leaves the rest of the record as it is. -/
theorem package_line_fields (info : APKInfo) (line P V C : GoString)
    (hpkg : HasPrefix (TrimSpace line) (bytes "package:") = true)
    (hP : FirstToken (bytes "name='") P (TrimSpace line))
    (hV : FirstToken (bytes "versionName='") V (TrimSpace line))
    (hC : FirstToken (bytes "versionCode='") C (TrimSpace line)) :
    aaptLine info line = { info with PackageName := P, VersionName := V, VersionCode := C } := by
  have hlabel : HasPrefix (TrimSpace line) (bytes "application-label:") = false := by
    unfold HasPrefix at hpkg ⊢
    rw [List.isPrefixOf_iff_prefix] at hpkg
    rw [Bool.eq_false_iff, Ne, List.isPrefixOf_iff_prefix]
    intro hl
    rcases List.prefix_or_prefix_of_prefix hpkg hl with h | h
    · revert h
      decide
    · revert h
      decide
  unfold aaptLine
  simp only [hpkg, hlabel, FindStringSubmatch_firstToken hP, FindStringSubmatch_firstToken hV,
    FindStringSubmatch_firstToken hC, if_true]
  simp

set_option maxRecDepth 100000 in
/-- Witness of C18 as amended: the three tokens in an order of their own. -/
theorem package_line_fields_witness :
    aaptLine {} packageLine
      = { PackageName := bytes "com.example.app", VersionName := bytes "1.2.3",
          VersionCode := bytes "45" } :=
  package_line_fields {} packageLine (bytes "com.example.app") (bytes "1.2.3") (bytes "45")
    (by decide)
    ⟨bytes "package: versionCode='45' versionName='1.2.3' ", bytes " sdk='30'",
      by decide, by decide, by decide, by decide⟩
    ⟨bytes "package: versionCode='45' ", bytes " name='com.example.app' sdk='30'",
      by decide, by decide, by decide, by decide⟩
    ⟨bytes "package: ", bytes " versionName='1.2.3' name='com.example.app' sdk='30'",
      by decide, by decide, by decide, by decide⟩

set_option maxRecDepth 100000 in
/-- Counterexample to C18 as stated: the line has one token for each key, with non-empty
values without single quote, and the version name `name=` stands before the package name;
the pattern for the package name matches inside the version token and the package name is
not `com.example.app`. -/
theorem package_line_counterexample :
    trickyPackageLine
      = bytes "package: " ++ (bytes "versionName='" ++ bytes "name=" ++ bytes "'") ++ bytes " " ++
          (bytes "name='" ++ bytes "com.example.app" ++ bytes "'") ++ bytes " " ++
          (bytes "versionCode='" ++ bytes "45" ++ bytes "'") ∧
    aaptLine {} trickyPackageLine
      = { PackageName := bytes " name=", VersionName := bytes "name=",
          VersionCode := bytes "45" } ∧
    (aaptLine {} trickyPackageLine).PackageName ≠ bytes "com.example.app" := by
  decide

/-! ## The renamer: the collision loop -/

theorem foldl_decimalAux (fuel n : Nat) (acc : GoString) (h : n < fuel) :
    (decimalAux fuel n acc).foldl (fun a d => 10 * a + (d - 48)) 0
      = acc.foldl (fun a d => 10 * a + (d - 48)) n := by
  induction fuel generalizing n acc with
  | zero => omega
  | succ fuel ih =>
    rw [decimalAux]
    by_cases hn : n < 10
    · simp only [if_pos hn, List.foldl_cons]
      congr 1
      omega
    · simp only [if_neg hn]
      rw [ih (n / 10) _ (by omega), List.foldl_cons]
      congr 1
      omega

theorem decimal_injective {n m : Nat} (h : decimal n = decimal m) : n = m := by
  have hn := foldl_decimalAux (n + 1) n [] (by omega)
  have hm := foldl_decimalAux (m + 1) m [] (by omega)
  unfold decimal at h
  rw [h, hm] at hn
  simpa using hn.symm

theorem length_TrimSuffix_add (s suffix : GoString) :
    s.length ≤ (TrimSuffix s suffix).length + suffix.length := by
  unfold TrimSuffix
  split
  · rename_i h
    unfold HasSuffix at h
    rw [List.isSuffixOf_iff_suffix] at h
    have := h.length_le
    rw [List.length_take]
    omega
  · omega

theorem length_candidate (path : GoString) {n : Nat} (hn : n ≠ 0) :
    path.length < (candidate path n).length := by
  unfold candidate
  rw [if_neg hn]
  have := length_TrimSuffix_add path (Ext path)
  have h1 : (bytes "_").length = 1 := by decide
  simp only [List.length_append, h1]
  omega

theorem candidate_injective (path : GoString) {n m : Nat}
    (h : candidate path n = candidate path m) : n = m := by
  by_cases hn : n = 0
  · by_cases hm : m = 0
    · rw [hn, hm]
    · have := length_candidate path hm
      rw [← h, hn] at this
      simp [candidate] at this
  · by_cases hm : m = 0
    · have := length_candidate path hn
      rw [h, hm] at this
      simp [candidate] at this
    · unfold candidate at h
      rw [if_neg hn, if_neg hm] at h
      have h' := List.append_cancel_right h
      exact decimal_injective (List.append_cancel_left h')

theorem uniqueFilePath_found (isNotExist : GoString → Bool) (path : GoString) (d : Nat) :
    ∀ (j fuel : Nat), (∀ i, j ≤ i → i < j + d → isNotExist (candidate path i) = false) →
      isNotExist (candidate path (j + d)) = true → d + 1 ≤ fuel →
      uniqueFilePath isNotExist path fuel (j + 1) (candidate path j)
        = some (candidate path (j + d)) := by
  induction d with
  | zero =>
    intro j fuel _ hfree hfuel
    obtain ⟨fuel, rfl⟩ : ∃ f, fuel = f + 1 := ⟨fuel - 1, by omega⟩
    rw [Nat.add_zero] at hfree
    rw [uniqueFilePath, if_pos hfree, Nat.add_zero]
  | succ d ih =>
    intro j fuel hbusy hfree hfuel
    obtain ⟨fuel, rfl⟩ : ∃ f, fuel = f + 1 := ⟨fuel - 1, by omega⟩
    rw [uniqueFilePath, if_neg (by rw [hbusy j (le_refl _) (by omega)]; simp)]
    have hnext : TrimSuffix path (Ext path) ++ bytes "_" ++ decimal (j + 1) ++ Ext path
        = candidate path (j + 1) := by
      unfold candidate
      rw [if_neg (by omega)]
    simp only [hnext]
    have := ih (j + 1) fuel (fun i h1 h2 => hbusy i (by omega) (by omega))
      (by rw [show j + 1 + d = j + (d + 1) by omega]; exact hfree) (by omega)
    rw [this, show j + 1 + d = j + (d + 1) by omega]

theorem exists_free_candidate (path : GoString) (E : Finset GoString) :
    ∃ n, n ≤ E.card ∧ candidate path n ∉ E := by
  by_contra hcon
  push_neg at hcon
  have hsub : (Finset.range (E.card + 1)).image (candidate path) ⊆ E := by
    intro p hp
    obtain ⟨n, hn, rfl⟩ := Finset.mem_image.1 hp
    exact hcon n (by simpa [Nat.lt_succ_iff] using hn)
  have hcard := Finset.card_le_card hsub
  rw [Finset.card_image_of_injective _ (fun a b h => candidate_injective path h),
    Finset.card_range] at hcard
  omega

/-- The collision loop on a file system with finitely many paths: it ends at the first
candidate that does not exist, after at most one test for each existing path and one more. -/
theorem uniqueFilePath_spec (isNotExist : GoString → Bool) (path : GoString)
    (E : Finset GoString) (hE : ∀ p, isNotExist p = true ↔ p ∉ E) :
    ∃ n, n ≤ E.card ∧ candidate path n ∉ E ∧ (∀ k, k < n → candidate path k ∈ E) ∧
      ∀ fuel, n + 1 ≤ fuel →
        uniqueFilePath isNotExist path fuel 1 path = some (candidate path n) := by
  classical
  have hex : ∃ n, candidate path n ∉ E := by
    obtain ⟨n, -, hn⟩ := exists_free_candidate path E
    exact ⟨n, hn⟩
  obtain ⟨m, hm, hmfree⟩ := exists_free_candidate path E
  refine ⟨Nat.find hex, (Nat.find_min' hex hmfree).trans hm, Nat.find_spec hex, ?_, ?_⟩
  · intro k hk
    by_contra hkE
    exact Nat.find_min hex hk hkE
  · intro fuel hfuel
    have := uniqueFilePath_found isNotExist path (Nat.find hex) 0 fuel
      (fun i _ hi => by
        have hiE : candidate path i ∈ E := by
          by_contra hkE
          exact Nat.find_min hex (by omega) hkE
        cases hb : isNotExist (candidate path i) with
        | false => rfl
        | true => exact absurd hiE ((hE _).1 hb))
      (by rw [Nat.zero_add]; exact (hE _).2 (Nat.find_spec hex)) hfuel
    simpa [candidate] using this



theorem Ext_apk (base : GoString) : Ext (base ++ bytes ".apk") = bytes ".apk" := by
  have h : bytes ".apk" = [0x2E, 0x61, 0x70, 0x6B] := by decide
  rw [h]
  have ht : (base ++ [0x2E, 0x61, 0x70, 0x6B]).rtakeWhile (fun b => b != 0x2E && b != 0x2F)
      = [0x61, 0x70, 0x6B] := by
    simp [List.rtakeWhile, List.takeWhile]
  unfold Ext
  simp only [ht]
  have hk : (base ++ [0x2E, 0x61, 0x70, 0x6B]).take
      ((base ++ [0x2E, 0x61, 0x70, 0x6B]).length - [0x61, 0x70, 0x6B].length)
      = base ++ [0x2E] := by
    have : base ++ [0x2E, 0x61, 0x70, 0x6B] = (base ++ [0x2E]) ++ [0x61, 0x70, 0x6B] := by simp
    rw [this, List.length_append, Nat.add_sub_cancel, List.take_left]
  rw [hk]
  simp

theorem candidate_apk (base : GoString) {n : Nat} (hn : n ≠ 0) :
    candidate (base ++ bytes ".apk") n = base ++ bytes "_" ++ decimal n ++ bytes ".apk" := by
  unfold candidate
  rw [if_neg hn, Ext_apk, TrimSuffix_append]

/-- Where `os.Stat` fails only for a path that is not there, so that the test of line 300
holds exactly outside the finite set `E` of existing paths, the collision loop ends with
`base.apk` when that path is not in `E`, and otherwise with `base_n.apk` for the least
`n ≥ 1` whose path is not in `E`; the path it ends with is never in `E`. -/
theorem least_free_destination (isNotExist : GoString → Bool) (base : GoString)
    (E : Finset GoString) (hE : ∀ p, isNotExist p = true ↔ p ∉ E) :
    (base ++ bytes ".apk" ∉ E →
      uniqueFilePath isNotExist (base ++ bytes ".apk") (E.card + 1) 1
        (base ++ bytes ".apk") = some (base ++ bytes ".apk")) ∧
    (base ++ bytes ".apk" ∈ E →
      ∃ n, 1 ≤ n ∧
        uniqueFilePath isNotExist (base ++ bytes ".apk") (E.card + 1) 1
          (base ++ bytes ".apk") = some (base ++ bytes "_" ++ decimal n ++ bytes ".apk") ∧
        base ++ bytes "_" ++ decimal n ++ bytes ".apk" ∉ E ∧
        ∀ k, 1 ≤ k → k < n → base ++ bytes "_" ++ decimal k ++ bytes ".apk" ∈ E) ∧
    (∀ dest,
      uniqueFilePath isNotExist (base ++ bytes ".apk") (E.card + 1) 1
        (base ++ bytes ".apk") = some dest → dest ∉ E) := by
  obtain ⟨n, hn, hfree, hbusy, hrun⟩ := uniqueFilePath_spec isNotExist
    (base ++ bytes ".apk") E hE
  have hres := hrun (E.card + 1) (by omega)
  refine ⟨?_, ?_, ?_⟩
  · intro h0
    have : n = 0 := by
      by_contra hne
      exact h0 (by simpa [candidate] using hbusy 0 (by omega))
    subst this
    simpa [candidate] using hres
  · intro h0
    have hne : n ≠ 0 := by
      rintro rfl
      exact hfree (by simpa [candidate] using h0)
    refine ⟨n, by omega, ?_, ?_, ?_⟩
    · rw [hres, candidate_apk base hne]
    · rw [← candidate_apk base hne]
      exact hfree
    · intro k hk hkn
      rw [← candidate_apk base (by omega : k ≠ 0)]
      exact hbusy k hkn
  · intro dest hdest
    rw [hres] at hdest
    cases hdest
    exact hfree

/-- Where the test of line 300 fails only on the paths of a finite set `E`, the collision
loop ends for every candidate path after at most `|E| + 1` tests, at a path on which the
test holds; more tests allowed change nothing. -/
theorem loop_ends_on_finite_failures (isNotExist : GoString → Bool) (path : GoString)
    (E : Finset GoString) (hE : ∀ p, isNotExist p = false → p ∈ E) :
    ∃ dest, isNotExist dest = true ∧
      ∀ fuel, E.card + 1 ≤ fuel → uniqueFilePath isNotExist path fuel 1 path = some dest := by
  obtain ⟨n, hn, hfree, -, hrun⟩ := uniqueFilePath_spec isNotExist path
    (E.filter (fun p => isNotExist p = false)) (fun p => by
      rw [Finset.mem_filter]
      constructor
      · intro h hp
        rw [h] at hp
        cases hp.2
      · intro h
        cases hb : isNotExist p with
        | true => rfl
        | false => exact absurd ⟨hE p hb, hb⟩ h)
  have hcard := Finset.card_filter_le E (fun p => isNotExist p = false)
  refine ⟨candidate path n, ?_, fun fuel hfuel => hrun fuel (by omega)⟩
  cases hb : isNotExist (candidate path n) with
  | true => rfl
  | false => exact absurd (Finset.mem_filter.2 ⟨hE _ hb, hb⟩) hfree

/-- A loop whose test fails on every path it tries has not ended after any number of
tests. -/
theorem uniqueFilePath_never (isNotExist : GoString → Bool) (path : GoString)
    (h : ∀ n, isNotExist (candidate path n) = false) (fuel : Nat) :
    uniqueFilePath isNotExist path fuel 1 path = none := by
  have key : ∀ (fuel j : Nat),
      uniqueFilePath isNotExist path fuel (j + 1) (candidate path j) = none := by
    intro fuel
    induction fuel with
    | zero => intro j; rfl
    | succ fuel ih =>
      intro j
      rw [uniqueFilePath, if_neg (by rw [h j]; simp)]
      have hnext : TrimSuffix path (Ext path) ++ bytes "_" ++ decimal (j + 1) ++ Ext path
          = candidate path (j + 1) := by
        unfold candidate
        rw [if_neg (by omega)]
      simp only [hnext]
      exact ih (j + 1)
  simpa [candidate] using key fuel 0

theorem osStat_nul (files : List GoString) {name : GoString} (h : 0 ∈ name) :
    (osStat files name).isNotExist = false := by
  unfold osStat
  rw [if_pos h]
  rfl

theorem osStat_below {files : List GoString} {f name : GoString} (hf : f ∈ files)
    (h : f ++ bytes "/" <+: name) : (osStat files name).isNotExist = false := by
  unfold osStat
  split
  · rfl
  · rw [if_pos]
    · rfl
    · rw [List.any_eq_true]
      exact ⟨f, hf, List.isPrefixOf_iff_prefix.2 h⟩

set_option maxRecDepth 100000 in
/-- C12, the code at the failing input.  The label that the manifest pattern captures from a
binary blob has a NUL byte, and so has the candidate path `nulPath`, which ends in `.apk`.
That path does not exist, and only `dir/app.apk` does; but `os.Stat` fails on it with
`EINVAL`, as on every `base_n.apk`, so that the test of line 300 never holds: whatever the
number of tests, the loop has chosen no destination. -/
theorem nul_candidate_never_chosen :
    (ExtractAndPrintAPKInfo manifestKeys none (bytes "dir/app.apk") (some nulArchive)).AppName
      = bytes "A" ++ [0] ++ bytes "B" ∧
    nulPath = bytes "dir/无加固_A" ++ [0] ++ bytes "B_com.example.app_1.2.3" ++ bytes ".apk" ∧
    nulPath ∉ onDisk ∧ osStat onDisk nulPath ≠ StatResult.found ∧
    ∀ fuel, uniqueFilePath (fun p => (osStat onDisk p).isNotExist) nulPath fuel 1 nulPath
      = none := by
  refine ⟨by decide, by decide, by decide, by decide, fun fuel => ?_⟩
  apply uniqueFilePath_never
  intro n
  apply osStat_nul
  unfold candidate
  split
  · decide
  · have h0 : 0 ∈ TrimSuffix nulPath (Ext nulPath) := by decide
    simp only [List.mem_append]
    exact Or.inl (Or.inl (Or.inl h0))

set_option maxRecDepth 100000 in
/-- C15, the code at the failing input.  One file exists, `dir/app.apk`, and the source path
of the record lies below it; the candidate path and every `base_n.apk` lie below that file
too, `os.Stat` fails on each of them with `ENOTDIR`, and the loop has not ended after any
number of tests. -/
theorem loop_never_ends_below_file :
    onDisk.length = 1 ∧ belowFilePath = bytes "dir/app.apk/L_App_p.apk" ∧
    ∀ fuel, uniqueFilePath (fun p => (osStat onDisk p).isNotExist) belowFilePath fuel 1
      belowFilePath = none := by
  refine ⟨rfl, by decide, fun fuel => ?_⟩
  apply uniqueFilePath_never
  intro n
  apply osStat_below (f := bytes "dir/app.apk") (by decide)
  unfold candidate
  split
  · decide
  · have h0 : bytes "dir/app.apk" ++ bytes "/"
        <+: TrimSuffix belowFilePath (Ext belowFilePath) := by
      decide
    simp only [List.append_assoc]
    exact h0.trans (List.prefix_append _ _)

/-! ## The renamer: copy and delete -/

theorem isNotExist_eq_true_iff (fs : FileSystem) (p : GoString) :
    fs.isNotExist p = true ↔ p ∉ (fs.files.map Prod.fst).toFinset := by
  unfold FileSystem.isNotExist
  simp only [Bool.not_eq_true', List.any_eq_false, beq_iff_eq, List.mem_toFinset, List.mem_map,
    not_exists, not_and]

theorem read_eq_none_iff (fs : FileSystem) (p : GoString) :
    fs.read p = none ↔ fs.isNotExist p = true := by
  unfold FileSystem.read FileSystem.isNotExist
  simp [List.find?_eq_none]

theorem find_filter_ne (l : List (GoString × GoString)) {p q : GoString} (h : q ≠ p) :
    (l.filter (fun f => f.1 != p)).find? (fun f => f.1 == q) = l.find? (fun f => f.1 == q) := by
  induction l with
  | nil => rfl
  | cons f l ih =>
    by_cases hf : f.1 = p
    · have h1 : (f.1 != p) = false := by simp [hf]
      have h2 : (f.1 == q) = false := by
        rw [hf]
        simpa using fun e => h e.symm
      simp only [List.filter_cons, h1, Bool.false_eq_true, if_false, List.find?_cons, h2, ih]
    · have h1 : (f.1 != p) = true := by simp [hf]
      simp only [List.filter_cons, h1, if_true, List.find?_cons, ih]

theorem read_write_ne (fs : FileSystem) {p q : GoString} (h : q ≠ p) (data : GoString) :
    (fs.write p data).read q = fs.read q := by
  unfold FileSystem.read FileSystem.write
  have hpq : ((p, data).1 == q) = false := by simpa using fun e => h e.symm
  simp only [List.find?_cons, hpq, find_filter_ne _ h]

theorem isNotExist_remove (fs : FileSystem) (p : GoString) :
    (fs.remove p).isNotExist p = true := by
  unfold FileSystem.isNotExist FileSystem.remove
  simp

/-- A copy that fails leaves the source as it was, when the destination does not exist. -/
theorem copyFile_source (fs : FileSystem) (faults : Faults) (src : GoString) {dst : GoString}
    (hdst : fs.isNotExist dst = true) :
    (copyFile fs faults src dst).2.read src = fs.read src := by
  unfold copyFile
  split
  · rfl
  · rename_i hopen
    have hsrc : fs.isNotExist src = false := by
      cases hb : fs.isNotExist src with
      | false => rfl
      | true => exact absurd (Or.inl hb) hopen
    have hne : src ≠ dst := by
      rintro rfl
      rw [hdst] at hsrc
      cases hsrc
    split
    · rfl
    · cases faults.readFromFails with
      | none => simp only [read_write_ne _ hne]
      | some n => simp only [read_write_ne _ hne]

theorem uniqueFilePath_fs (fs : FileSystem) (path : GoString) (fuel : Nat)
    (hfuel : fs.files.length + 1 ≤ fuel) :
    ∃ dest, fs.isNotExist dest = true ∧
      uniqueFilePath fs.isNotExist path fuel 1 path = some dest := by
  obtain ⟨n, hn, hfree, -, hrun⟩ := uniqueFilePath_spec fs.isNotExist path
    (fs.files.map Prod.fst).toFinset (isNotExist_eq_true_iff fs)
  have hcard : (fs.files.map Prod.fst).toFinset.card ≤ fs.files.length := by
    have := List.toFinset_card_le (fs.files.map Prod.fst)
    simpa using this
  exact ⟨candidate path n, (isNotExist_eq_true_iff fs _).2 hfree, hrun fuel (by omega)⟩

/-- C14: with the rename switch off `RenameAPKFile` returns `nil` and leaves the file
system as it is, whatever the delete switch, the faults and the state are. -/
theorem rename_disabled_inert (ArgDeleteOrig : Bool) (faults : Faults) (fuel : Nat)
    (fs : FileSystem) (apkInfo : APKInfo) (packInfo : GoString) :
    RenameAPKFile false ArgDeleteOrig faults fuel fs apkInfo packInfo = some (none, fs) := by
  unfold RenameAPKFile
  simp

/-- C13: with both switches on, `RenameAPKFile` ends (the file system has finitely many
paths); when `copyFile` fails it returns the copy error and the source is as before, still
present if it was; the source is gone afterwards only when `copyFile` succeeded and no error
is returned. -/
theorem failed_copy_keeps_source (faults : Faults) (fuel : Nat) (fs : FileSystem)
    (apkInfo : APKInfo) (packInfo : GoString) (hfuel : fs.files.length + 1 ≤ fuel) :
    ∃ dest err fs',
      uniqueFilePath fs.isNotExist
        (filepathJoin [Dir apkInfo.FilePath, newFileName apkInfo packInfo]) fuel 1
        (filepathJoin [Dir apkInfo.FilePath, newFileName apkInfo packInfo]) = some dest ∧
      RenameAPKFile true true faults fuel fs apkInfo packInfo = some (err, fs') ∧
      ((copyFile fs faults apkInfo.FilePath dest).1 = true →
        err = some RenameError.copyFailed ∧
        fs'.read apkInfo.FilePath = fs.read apkInfo.FilePath ∧
        fs'.isNotExist apkInfo.FilePath = fs.isNotExist apkInfo.FilePath) ∧
      (fs.isNotExist apkInfo.FilePath = false → fs'.isNotExist apkInfo.FilePath = true →
        (copyFile fs faults apkInfo.FilePath dest).1 = false ∧ err = none) := by
  obtain ⟨dest, hdest, hloop⟩ := uniqueFilePath_fs fs
    (filepathJoin [Dir apkInfo.FilePath, newFileName apkInfo packInfo]) fuel hfuel
  have hsrc := copyFile_source fs faults apkInfo.FilePath hdest
  have hexists : ∀ g : FileSystem, g.read apkInfo.FilePath = fs.read apkInfo.FilePath →
      g.isNotExist apkInfo.FilePath = fs.isNotExist apkInfo.FilePath := by
    intro g hg
    cases hb : fs.isNotExist apkInfo.FilePath with
    | true =>
      rw [← read_eq_none_iff, ← hg, read_eq_none_iff] at hb
      exact hb
    | false =>
      cases hg' : g.isNotExist apkInfo.FilePath with
      | false => rfl
      | true =>
        rw [← read_eq_none_iff, hg, read_eq_none_iff, hb] at hg'
        cases hg'
  refine ⟨dest, ?_⟩
  unfold RenameAPKFile
  simp only [Bool.not_true, Bool.false_eq_true, if_false, hloop, if_true]
  generalize copyFile fs faults apkInfo.FilePath dest = res at hsrc ⊢
  obtain ⟨failed, fs1⟩ := res
  simp only at hsrc
  cases failed with
  | true =>
    refine ⟨some .copyFailed, fs1, trivial, rfl,
      ?_, ?_⟩
    · intro _
      exact ⟨rfl, hsrc, hexists fs1 hsrc⟩
    · intro h1 h2
      rw [hexists fs1 hsrc, h1] at h2
      cases h2
  | false =>
    simp only
    by_cases hdel : fs1.isNotExist apkInfo.FilePath = true ∨ faults.removeFails = true
    · rw [if_pos hdel]
      refine ⟨some .deleteFailed, fs1, trivial, rfl,
        ?_, ?_⟩
      · intro h
        cases h
      · intro h1 h2
        rw [hexists fs1 hsrc, h1] at h2
        cases h2
    · rw [if_neg hdel]
      refine ⟨none, fs1.remove apkInfo.FilePath, trivial, rfl, ?_, ?_⟩
      · intro h
        cases h
      · intro _ _
        exact ⟨trivial, rfl⟩

set_option maxRecDepth 100000 in
/-- Witness of C13: the copy stops with an error after two bytes. -/
theorem failed_copy_keeps_source_witness :
    ∃ dest err fs',
      uniqueFilePath exampleFS.isNotExist
        (filepathJoin [Dir exampleInfo.FilePath, newFileName exampleInfo (bytes "L")]) 3 1
        (filepathJoin [Dir exampleInfo.FilePath, newFileName exampleInfo (bytes "L")])
          = some dest ∧
      RenameAPKFile true true { readFromFails := some 2 } 3 exampleFS exampleInfo (bytes "L")
        = some (err, fs') ∧
      ((copyFile exampleFS { readFromFails := some 2 } exampleInfo.FilePath dest).1 = true →
        err = some RenameError.copyFailed ∧
        fs'.read exampleInfo.FilePath = exampleFS.read exampleInfo.FilePath ∧
        fs'.isNotExist exampleInfo.FilePath = exampleFS.isNotExist exampleInfo.FilePath) ∧
      (exampleFS.isNotExist exampleInfo.FilePath = false →
        fs'.isNotExist exampleInfo.FilePath = true →
        (copyFile exampleFS { readFromFails := some 2 } exampleInfo.FilePath dest).1 = false ∧
          err = none) :=
  failed_copy_keeps_source { readFromFails := some 2 } 3 exampleFS exampleInfo (bytes "L")
    (by decide)

end ApkRename
